import Mathlib

/-!
# VHub-Server: a shallow embedding of the version-control engine

This file embeds the two storage backends of the VHub-Server repository
(`src/implementations/graph_db_impl.py`, a JSON-document store with
flat-file blobs, and `src/implementations/sqlite_fs_impl.py`, a relational
store) as pure Lean functions over explicit repository states, and proves
the frozen specification claims about them.

Conventions:
* Python dicts become association lists `List (String × α)` with unique
  keys; `d[k] = v` keeps insertion order (replace in place if the key is
  present, append otherwise), exactly like a Python dict.
* Request payloads (the `data` dicts) are modelled as structures whose
  fields are present and well-typed; `Optional` JSON fields are `Option`.
* Python truthiness of an optional string (`if parent_id:`) is `pyTruthy`:
  `None` and `""` are falsy.
* Exceptions that the handlers catch and turn into HTTP 500 responses are
  modelled as explicit error results, threading exactly the on-disk state
  mutated before the raise.
-/

set_option maxRecDepth 100000

namespace VHub

/-- Python truthiness of an optional string: `None` and `""` are falsy. -/
def pyTruthy : Option String → Bool
  | none => false
  | some s => s ≠ ""

/-- Association-list lookup (Python `d[k]` / `d.get(k)`): first entry wins. -/
def alookup : List (String × α) → String → Option α
  | [], _ => none
  | (k', v) :: t, k => if k' = k then some v else alookup t k

/-- Key membership (Python `k in d`). -/
def amem (l : List (String × α)) (k : String) : Bool :=
  (alookup l k).isSome

/-- Python dict assignment `d[k] = v`: replace in place if the key is
present, append at the end otherwise. -/
def aset : List (String × α) → String → α → List (String × α)
  | [], k, v => [(k, v)]
  | (k', v') :: t, k, v =>
    if k' = k then (k, v) :: t else (k', v') :: aset t k v

theorem alookup_aset_self (l : List (String × α)) (k : String) (v : α) :
    alookup (aset l k v) k = some v := by
  induction l with
  | nil => simp [aset, alookup]
  | cons p t ih =>
    obtain ⟨k', v'⟩ := p
    by_cases h : k' = k
    · simp [aset, alookup, h]
    · simp [aset, alookup, h, ih]

theorem alookup_aset_other (l : List (String × α)) (k k' : String) (v : α)
    (h : k' ≠ k) : alookup (aset l k v) k' = alookup l k' := by
  have h' : k ≠ k' := fun hh => h hh.symm
  induction l with
  | nil => simp [aset, alookup, h']
  | cons p t ih =>
    obtain ⟨k'', v''⟩ := p
    by_cases hk : k'' = k
    · subst hk
      simp [aset, alookup, h']
    · by_cases hq : k'' = k'
      · subst hq
        simp [aset, alookup, hk]
      · simp [aset, alookup, hk, hq, ih]

/-!
## SHA-1 and `utils/hash_utils.calculate_hash`

`calculate_hash` (src/utils/hash_utils.py) is
`hashlib.sha1(content.encode('utf-8')).hexdigest()`.  The SHA-1 compression
below is the FIPS 180-4 algorithm that `hashlib.sha1` implements, over byte
lists with 32-bit words as `Nat` reduced mod `2^32`.
-/

/-- Truncate to a 32-bit word. -/
def w32 (n : Nat) : Nat := n % 4294967296

/-- 32-bit left rotation. -/
def rotl (k x : Nat) : Nat := w32 ((x <<< k) ||| (x >>> (32 - k)))

/-- UTF-8 encoding of a single character (RFC 3629). -/
def utf8EncodeChar (c : Char) : List Nat :=
  let n := c.toNat
  if n < 128 then [n]
  else if n < 2048 then [192 ||| (n >>> 6), 128 ||| (n &&& 63)]
  else if n < 65536 then
    [224 ||| (n >>> 12), 128 ||| ((n >>> 6) &&& 63), 128 ||| (n &&& 63)]
  else
    [240 ||| (n >>> 18), 128 ||| ((n >>> 12) &&& 63),
     128 ||| ((n >>> 6) &&& 63), 128 ||| (n &&& 63)]

/-- UTF-8 bytes of a string (Python `content.encode('utf-8')`). -/
def utf8Bytes (s : String) : List Nat :=
  (s.data.map utf8EncodeChar).flatten

/-- SHA-1 message padding: append `0x80`, zeros to 56 mod 64, then the
bit length as a 64-bit big-endian integer. -/
def sha1Pad (msg : List Nat) : List Nat :=
  let len := msg.length
  let bitLen := 8 * len
  let zeros := (119 - len % 64) % 64
  msg ++ [128] ++ List.replicate zeros 0 ++
    [(bitLen >>> 56) % 256, (bitLen >>> 48) % 256, (bitLen >>> 40) % 256,
     (bitLen >>> 32) % 256, (bitLen >>> 24) % 256, (bitLen >>> 16) % 256,
     (bitLen >>> 8) % 256, bitLen % 256]

/-- Group bytes into 32-bit big-endian words. -/
def bytesToWords : List Nat → List Nat
  | a :: b :: c :: d :: rest =>
    ((a <<< 24) ||| (b <<< 16) ||| (c <<< 8) ||| d) :: bytesToWords rest
  | _ => []

/-- Split a word list into 16-word blocks (fuel-based so that the kernel
can evaluate it; the fuel `l.length` always suffices). -/
def chunks16Go : Nat → List Nat → List (List Nat)
  | 0, _ => []
  | _, [] => []
  | fuel + 1, w :: ws => ((w :: ws).take 16) :: chunks16Go fuel ((w :: ws).drop 16)

/-- Split a word list into 16-word blocks. -/
def chunks16 (l : List Nat) : List (List Nat) := chunks16Go l.length l

/-- SHA-1 message schedule: expand 16 words to 80. -/
def sha1Schedule (ws : List Nat) : List Nat :=
  (List.range 80).foldl
    (fun acc i =>
      if i < 16 then acc ++ [ws.getD i 0]
      else acc ++ [rotl 1 (acc.getD (i - 3) 0 ^^^ acc.getD (i - 8) 0 ^^^
                           acc.getD (i - 14) 0 ^^^ acc.getD (i - 16) 0)])
    []

/-- SHA-1 round function and constant for round `i`. -/
def sha1FK (i b c d : Nat) : Nat × Nat :=
  if i < 20 then ((b &&& c) ||| ((4294967295 ^^^ b) &&& d), 1518500249)
  else if i < 40 then (b ^^^ c ^^^ d, 1859775393)
  else if i < 60 then ((b &&& c) ||| (b &&& d) ||| (c &&& d), 2400959708)
  else (b ^^^ c ^^^ d, 3395469782)

/-- Process one 16-word block, updating the five-word state. -/
def sha1Block (h : List Nat) (chunk : List Nat) : List Nat :=
  let ws := sha1Schedule chunk
  let h0 := h.getD 0 0
  let h1 := h.getD 1 0
  let h2 := h.getD 2 0
  let h3 := h.getD 3 0
  let h4 := h.getD 4 0
  let st := (List.range 80).foldl
    (fun (st : Nat × Nat × Nat × Nat × Nat) i =>
      let (a, b, c, d, e) := st
      let fk := sha1FK i b c d
      let temp := w32 (rotl 5 a + fk.1 + e + fk.2 + ws.getD i 0)
      (temp, a, rotl 30 b, c, d))
    (h0, h1, h2, h3, h4)
  [w32 (h0 + st.1), w32 (h1 + st.2.1), w32 (h2 + st.2.2.1),
   w32 (h3 + st.2.2.2.1), w32 (h4 + st.2.2.2.2)]

/-- SHA-1 of a byte list: the five-word final state. -/
def sha1Words (msg : List Nat) : List Nat :=
  (chunks16 (bytesToWords (sha1Pad msg))).foldl sha1Block
    [1732584193, 4023233417, 2562383102, 271733878, 3285377520]

/-- Lower-case hex digit. -/
def hexDigit (n : Nat) : Char :=
  if n < 10 then Char.ofNat (48 + n) else Char.ofNat (87 + n)

/-- Eight-nibble big-endian hex rendering of a 32-bit word. -/
def wordToHex (w : Nat) : List Char :=
  [hexDigit ((w >>> 28) % 16), hexDigit ((w >>> 24) % 16),
   hexDigit ((w >>> 20) % 16), hexDigit ((w >>> 16) % 16),
   hexDigit ((w >>> 12) % 16), hexDigit ((w >>> 8) % 16),
   hexDigit ((w >>> 4) % 16), hexDigit (w % 16)]

/-- SHA-1 hex digest of a byte list (Python `.hexdigest()`). -/
def sha1Hex (msg : List Nat) : String :=
  String.mk ((sha1Words msg).map wordToHex).flatten

/-- `utils/hash_utils.calculate_hash`: SHA-1 hex digest of the UTF-8
bytes of `content`. -/
def calculate_hash (content : String) : String :=
  sha1Hex (utf8Bytes content)

/-- Sanity check of the SHA-1 model against the standard test vector
`SHA1("abc") = a9993e364706816aba3e25717850c26c9cd0d89d`. -/
theorem sha1_test_vector_abc :
    calculate_hash "abc" = "a9993e364706816aba3e25717850c26c9cd0d89d" := by
  decide

/-- Sanity check against the empty-string test vector. -/
theorem sha1_test_vector_empty :
    calculate_hash "" = "da39a3ee5e6b4b0d3255bfef95601890afd80709" := by
  decide

/-!
## Unified diff

Both backends compute the diff of a modified file as

    '\n'.join(difflib.unified_diff(parent.splitlines(), current.splitlines(),
                                   f'a/{path}', f'b/{path}', lineterm=''))

The functions below model Python's `str.splitlines` and
`difflib.unified_diff` (standard library, not repository code): a
line-based unified diff via a longest-common-subsequence edit script,
grouped into hunks with three lines of context, `---`/`+++` labels, and no
line terminators on the emitted lines (`lineterm=''`).
-/

/-- Worker for `pySplitlines`. -/
def splitlinesGo : List Char → List Char → List String
  | [], [] => []
  | [], acc => [String.mk acc.reverse]
  | '\r' :: '\n' :: rest, acc => String.mk acc.reverse :: splitlinesGo rest []
  | '\n' :: rest, acc => String.mk acc.reverse :: splitlinesGo rest []
  | '\r' :: rest, acc => String.mk acc.reverse :: splitlinesGo rest []
  | c :: rest, acc => splitlinesGo rest (c :: acc)

/-- Python `str.splitlines()` restricted to the `\n`, `\r`, `\r\n`
terminators: no trailing empty line for a terminated last line. -/
def pySplitlines (s : String) : List String := splitlinesGo s.data []

/-- One step of a line-level edit script. -/
inductive EditOp where
  | keep (s : String)
  | del (s : String)
  | ins (s : String)
deriving DecidableEq, Repr

/-- One row of the LCS suffix table from the next row: entry `j` is the
LCS length of `x :: xs-suffix` against the `ys`-suffix starting at `j`. -/
def lcsNextRow (x : String) : List String → List Nat → List Nat
  | [], _ => [0]
  | y :: ys, next =>
    let rest := next.tail
    let tail := lcsNextRow x ys rest
    let cell := if x = y then rest.headD 0 + 1 else max (next.headD 0) (tail.headD 0)
    cell :: tail

/-- All rows of the LCS suffix table, top row first. -/
def lcsRows (xs ys : List String) : List (List Nat) :=
  xs.foldr (fun x rows => lcsNextRow x ys (rows.headD []) :: rows)
    [List.replicate (ys.length + 1) 0]

/-- Backtrack through the LCS table, preferring deletions on ties (fuel-based
so the kernel can evaluate it; `|xs| + |ys| + 1` fuel always suffices). -/
def backtrackGo : Nat → List String → List String → List (List Nat) → List EditOp
  | 0, _, _, _ => []
  | _ + 1, [], ys, _ => ys.map EditOp.ins
  | fuel + 1, x :: xs, [], rows => EditOp.del x :: backtrackGo fuel xs [] rows.tail
  | fuel + 1, x :: xs, y :: ys, rows =>
    if x = y then
      EditOp.keep x :: backtrackGo fuel xs ys (rows.tail.map List.tail)
    else if ((rows.getD 1 []).headD 0) ≥ ((rows.headD []).getD 1 0) then
      EditOp.del x :: backtrackGo fuel xs (y :: ys) rows.tail
    else
      EditOp.ins y :: backtrackGo fuel (x :: xs) ys (rows.map List.tail)

/-- Line-level edit script between two line lists. -/
def editScript (xs ys : List String) : List EditOp :=
  backtrackGo (xs.length + ys.length + 1) xs ys (lcsRows xs ys)

/-- A maximal run of the edit script: unchanged lines, or a change block
(deleted lines then inserted lines). -/
inductive DiffRun where
  | eq (lines : List String)
  | chg (dels : List String) (inss : List String)
deriving DecidableEq, Repr

/-- Merge an edit script into alternating runs. -/
def toRuns : List EditOp → List DiffRun
  | [] => []
  | EditOp.keep s :: rest =>
    match toRuns rest with
    | DiffRun.eq ls :: rs => DiffRun.eq (s :: ls) :: rs
    | rs => DiffRun.eq [s] :: rs
  | EditOp.del s :: rest =>
    match toRuns rest with
    | DiffRun.chg ds is :: rs => DiffRun.chg (s :: ds) is :: rs
    | rs => DiffRun.chg [s] [] :: rs
  | EditOp.ins s :: rest =>
    match toRuns rest with
    | DiffRun.chg ds is :: rs => DiffRun.chg ds (s :: is) :: rs
    | rs => DiffRun.chg [] [s] :: rs

/-- An accumulated hunk: 0-based start positions, line counts on each side,
and the rendered body lines. -/
structure HunkAcc where
  aStart : Nat
  bStart : Nat
  aLen : Nat
  bLen : Nat
  lines : List String
deriving DecidableEq, Repr

/-- Group runs into hunks with `n = 3` context lines: an unchanged run
longer than `2 * n` inside a hunk splits it, keeping three trailing and
three leading context lines, exactly as `difflib`'s opcode grouping. -/
def groupRuns : List DiffRun → Nat → Nat → Option HunkAcc → List HunkAcc
  | [], _, _, none => []
  | [], _, _, some h => [h]
  | DiffRun.chg ds is :: rest, aPos, bPos, cur =>
    let h := cur.getD ⟨aPos, bPos, 0, 0, []⟩
    let h' : HunkAcc :=
      { h with aLen := h.aLen + ds.length, bLen := h.bLen + is.length,
               lines := h.lines ++ ds.map ("-" ++ ·) ++ is.map ("+" ++ ·) }
    groupRuns rest (aPos + ds.length) (bPos + is.length) (some h')
  | DiffRun.eq ls :: rest, aPos, bPos, none =>
    let L := ls.length
    match rest with
    | [] => []
    | _ =>
      let ctx := ls.drop (L - min 3 L)
      let h : HunkAcc := ⟨aPos + (L - ctx.length), bPos + (L - ctx.length),
                          ctx.length, ctx.length, ctx.map (" " ++ ·)⟩
      groupRuns rest (aPos + L) (bPos + L) (some h)
  | DiffRun.eq ls :: rest, aPos, bPos, some h =>
    let L := ls.length
    match rest with
    | [] =>
      let ctx := ls.take 3
      [{ h with aLen := h.aLen + ctx.length, bLen := h.bLen + ctx.length,
                lines := h.lines ++ ctx.map (" " ++ ·) }]
    | _ =>
      if L ≤ 6 then
        groupRuns rest (aPos + L) (bPos + L)
          (some { h with aLen := h.aLen + L, bLen := h.bLen + L,
                         lines := h.lines ++ ls.map (" " ++ ·) })
      else
        let closed := { h with aLen := h.aLen + 3, bLen := h.bLen + 3,
                               lines := h.lines ++ (ls.take 3).map (" " ++ ·) }
        let ctx := ls.drop (L - 3)
        let h2 : HunkAcc := ⟨aPos + L - 3, bPos + L - 3, 3, 3, ctx.map (" " ++ ·)⟩
        closed :: groupRuns rest (aPos + L) (bPos + L) (some h2)

/-- `difflib._format_range_unified`: 1-based start, length elided when 1. -/
def formatRange (start len : Nat) : String :=
  if len = 1 then toString (start + 1)
  else if len = 0 then toString start ++ ",0"
  else toString (start + 1) ++ "," ++ toString len

/-- Render one hunk: `@@`-header then body lines. -/
def renderHunk (h : HunkAcc) : List String :=
  ("@@ -" ++ formatRange h.aStart h.aLen ++ " +" ++ formatRange h.bStart h.bLen
    ++ " @@") :: h.lines

/-- `difflib.unified_diff(a, b, fromfile, tofile, lineterm='')` as the list
of emitted lines; empty when the two line lists are equal. -/
def unified_diff (a b : List String) (fromfile tofile : String) : List String :=
  let hunks := groupRuns (toRuns (editScript a b)) 0 0 none
  match hunks with
  | [] => []
  | _ =>
    ("--- " ++ fromfile) :: ("+++ " ++ tofile) :: (hunks.map renderHunk).flatten

/-- The diff text both backends store for a modified file:
`'\n'.join(difflib.unified_diff(parent.splitlines(), current.splitlines(),
f'a/{path}', f'b/{path}', lineterm=''))`. -/
def diffText (parentContent currentContent path : String) : String :=
  String.intercalate "\n"
    (unified_diff (pySplitlines parentContent) (pySplitlines currentContent)
      ("a/" ++ path) ("b/" ++ path))

/-- Sanity check of the diff model on the spec's §8 scenario:
`v1 → v2` yields a single hunk `-v1/+v2`. -/
theorem diffText_v1_v2 :
    diffText "v1" "v2" "f.txt" =
      "--- a/f.txt\n+++ b/f.txt\n@@ -1 +1 @@\n-v1\n+v2" := by
  decide

/-!
## Shared data model and request payloads
-/

/-- One change record (a value of the per-commit `changes` map in the graph
backend; one row of the `changes` table in the relational backend). -/
structure ChangeRecord where
  status : String
  diff : Option String
  previous_hash : Option String
  current_hash : Option String
deriving DecidableEq, Repr

/-- A `{hash, content}` file entry as both backends build their
`parent_files` / `current_files` maps; `content` is `none` when the Python
value is `None` (a missing object in the graph backend's store). -/
structure FileEntry where
  hash : String
  content : Option String
deriving DecidableEq, Repr

/-- One file of a push request: `data['files'][path] = {hash, content}`.
The graph backend uses only `content` (it re-hashes); the relational
backend stores the caller-supplied `hash` and `content` verbatim. -/
structure PushFile where
  hash : String
  content : String
deriving DecidableEq, Repr

/-- A push request body with its fields present and well-typed. -/
structure PushData where
  repo_name : String
  id : String
  message : String
  author : String
  timestamp : String
  parent_id : Option String
  files : List (String × PushFile)
deriving DecidableEq, Repr

/-- A commit summary as returned by `get_commits` in both backends. -/
structure CommitSummary where
  id : String
  message : String
  author : String
  timestamp : String
  parent_id : Option String
  change_count : Nat
deriving DecidableEq, Repr

/-- Characters admitted by the repository-name pattern `[a-zA-Z0-9_-]`. -/
def isNameChar (c : Char) : Bool := c.isAlphanum || c = '_' || c = '-'

/-- `validate_repo_name`: Python `re.match(r'^[a-zA-Z0-9_-]+$', name)`.
`$` also matches just before one final newline, so `"abc\n"` passes. -/
def validate_repo_name (s : String) : Bool :=
  let cs := s.data
  let core := if cs.getLast? = some '\n' then cs.dropLast else cs
  decide (core ≠ []) && core.all isNameChar

/-- Keep the first occurrence of each element (models iterating
`set(list(a) + list(b))`; the change loop's output is order-insensitive as
a map, and we fix first-occurrence order as the iteration order). -/
def dedupFirstGo (seen : List String) : List String → List String
  | [] => []
  | x :: xs =>
    if x ∈ seen then dedupFirstGo seen xs
    else x :: dedupFirstGo (x :: seen) xs

/-- First-occurrence deduplication. -/
def dedupFirst (l : List String) : List String := dedupFirstGo [] l

/-- Code-point list comparison, the order Python uses on `str` and SQLite
uses on TEXT (binary collation agrees with code-point order on UTF-8). -/
def charListLt : List Char → List Char → Bool
  | [], [] => false
  | [], _ :: _ => true
  | _ :: _, [] => false
  | c :: cs, d :: ds =>
    if c.toNat < d.toNat then true
    else if d.toNat < c.toNat then false
    else charListLt cs ds

/-- Lexicographic string comparison by code points. -/
def pyStrLt (a b : String) : Bool := charListLt a.data b.data

/-- Stable insertion (descending by key) for `sort(key=..., reverse=True)`
and SQL `ORDER BY key DESC`. -/
def insertByDesc (key : α → String) (x : α) : List α → List α
  | [] => [x]
  | y :: ys =>
    if pyStrLt (key y) (key x) then x :: y :: ys else y :: insertByDesc key x ys

/-- Stable descending sort by a string key. -/
def sortByKeyDesc (key : α → String) (l : List α) : List α :=
  l.foldl (fun acc x => insertByDesc key x acc) []

/-- Stable insertion (ascending by key) for SQL `ORDER BY key ASC`. -/
def insertByAsc (key : α → String) (x : α) : List α → List α
  | [] => [x]
  | y :: ys =>
    if pyStrLt (key x) (key y) then x :: y :: ys else y :: insertByAsc key x ys

/-- Stable ascending sort by a string key. -/
def sortByKeyAsc (key : α → String) (l : List α) : List α :=
  l.foldl (fun acc x => insertByAsc key x acc) []

/-- Result of `push_commit`. -/
inductive PushResult where
  | invalidName
  | duplicate (id : String)
  | success (changes : Nat)
  | parentNotFound (p : String)
  | error
deriving DecidableEq, Repr

/-- Result of `pull_commits`. -/
inductive PullResult where
  | invalidName
  | sourceNotFound
  | success (pulled skipped : Nat)
  | error
deriving DecidableEq, Repr

/-- Result of `clone_repo` (the relational backend's clone returns its
inner pull's counters). -/
inductive CloneResult where
  | invalidName
  | sourceNotFound
  | targetExists
  | successGraph (commit_count file_count : Nat)
  | successPull (pulled skipped : Nat)
  | error
deriving DecidableEq, Repr


namespace GraphDB

/-!
## Graph backend (`src/implementations/graph_db_impl.py`)

One repository is its on-disk layout: the parsed `graph.json` document
(`GraphData`) plus the `objects/` directory as a hash → content map.  The
whole backend state maps repository names to repositories.
-/

/-- The contents of a repository's `graph.json`. -/
structure CommitData where
  message : String
  author : String
  timestamp : String
  parent_id : Option String
  files : List (String × String)
deriving DecidableEq, Repr

/-- The four top-level keys of `graph.json`. -/
structure GraphData where
  commits : List (String × CommitData)
  changes : List (String × List (String × VHub.ChangeRecord))
  branches_main : Option String
  head : Option String
deriving DecidableEq, Repr

/-- `init_repo_graph`: `{commits: {}, changes: {}, branches: {main: None},
HEAD: None}`. -/
def GraphData.init : GraphData := ⟨[], [], none, none⟩

/-- A repository directory: `graph.json` plus the `objects/` store. -/
structure Repo where
  graph : GraphData
  objects : List (String × String)
deriving DecidableEq, Repr

/-- A freshly created repository. -/
def Repo.init : Repo := ⟨GraphData.init, []⟩

/-- The backend's base directory: repository name → repository. -/
abbrev State := List (String × Repo)

open VHub

/-- `get_object_content`: read `objects/<h[:2]>/<h[2:]>`, `None` if absent. -/
def get_object_content (repo : Repo) (h : String) : Option String :=
  alookup repo.objects h

/-- `store_object` on the objects directory: hash the content, write the
object file only if it does not already exist, return the hash. -/
def store_object_fs (objects : List (String × String)) (content : String) :
    String × List (String × String) :=
  let h := calculate_hash content
  (h, if amem objects h then objects else objects ++ [(h, content)])

/-- `store_object` on a repository. -/
def store_object (repo : Repo) (content : String) : String × Repo :=
  let r := store_object_fs repo.objects content
  (r.1, { repo with objects := r.2 })

/-- One path of the `calculate_changes` loop (graph backend, parent
present).  Outer `none` models the uncaught `AttributeError` when a
missing object's `None` content reaches `.splitlines()`; inner `none`
means the path is omitted from the change set. -/
def changeEntry (parent_files current_files : List (String × FileEntry))
    (p : String) : Option (Option ChangeRecord) :=
  match alookup current_files p, alookup parent_files p with
  | some cf, none => some (some ⟨"added", none, none, some cf.hash⟩)
  | none, some pf => some (some ⟨"deleted", none, some pf.hash, none⟩)
  | some cf, some pf =>
    if cf.hash ≠ pf.hash then
      match pf.content, cf.content with
      | some pc, some cc =>
        some (some ⟨"modified", some (diffText pc cc p), some pf.hash, some cf.hash⟩)
      | _, _ => none
    else some none
  | none, none => some none

/-- The `for file_path in all_paths` loop of `calculate_changes`. -/
def changesLoop (parent_files current_files : List (String × FileEntry)) :
    List String → Option (List (String × ChangeRecord))
  | [] => some []
  | p :: ps => do
    let e ← changeEntry parent_files current_files p
    let rest ← changesLoop parent_files current_files ps
    match e with
    | some r => pure ((p, r) :: rest)
    | none => pure rest

/-- `calculate_changes` for a parent-bearing commit, given the two
`{path: {hash, content}}` maps already built. -/
def changes_from_maps (parent_files current_files : List (String × FileEntry)) :
    Option (List (String × ChangeRecord)) :=
  changesLoop parent_files current_files
    (dedupFirst (parent_files.map Prod.fst ++ current_files.map Prod.fst))

/-- Build a `{path: {hash, content}}` map from a `path → hash` dict,
fetching each content from the object store (the dict-building loops of
`calculate_changes`). -/
def buildFileMap (repo : Repo) (l : List (String × String)) :
    List (String × FileEntry) :=
  l.map fun fh => (fh.1, ⟨fh.2, get_object_content repo fh.2⟩)

/-- `calculate_changes(repo_name, commit_data)`: all-added when
`parent_id` is falsy; otherwise build both maps (contents fetched from the
object store) and run the loop over the union of paths.  A parent id
absent from `commits` yields an empty parent map. -/
def calculate_changes (repo : Repo) (parent_id : Option String)
    (files : List (String × String)) : Option (List (String × ChangeRecord)) :=
  if ¬ pyTruthy parent_id then
    some (files.map fun pf => (pf.1, ⟨"added", none, none, some pf.2⟩))
  else
    let parent_files : List (String × FileEntry) :=
      match alookup repo.graph.commits (parent_id.getD "") with
      | some pc => buildFileMap repo pc.files
      | none => []
    let current_files : List (String × FileEntry) := buildFileMap repo files
    changes_from_maps parent_files current_files

/-- The `for file_path, file_info in data['files']` loop of `push_commit`:
store each file's content, collect `files_hashes[path] = hash`. -/
def storeFiles : Repo → List (String × PushFile) → List (String × String) × Repo
  | repo, [] => ([], repo)
  | repo, pf :: rest =>
    let r := store_object repo pf.2.content
    let t := storeFiles r.2 rest
    ((pf.1, r.1) :: t.1, t.2)

/-- The tail of `push_commit`'s success path: insert the commit and its
change record into the graph document, then apply the HEAD-advance rule
(`HEAD is None or HEAD == parent_id`) to HEAD and branch `main`. -/
def recordCommit (repo1 : Repo) (data : PushData)
    (files_hashes : List (String × String))
    (changes : List (String × ChangeRecord)) : Repo :=
  let commit : CommitData :=
    ⟨data.message, data.author, data.timestamp, data.parent_id, files_hashes⟩
  let g : GraphData := { repo1.graph with
             commits := aset repo1.graph.commits data.id commit,
             changes := aset repo1.graph.changes data.id changes }
  let g := if g.head = none ∨ g.head = data.parent_id then
             { g with head := some data.id, branches_main := some data.id }
           else g
  { repo1 with graph := g }

/-- `push_commit(data)`.  Creates the repository if absent; a duplicate
`id` returns HTTP 200 without touching anything; otherwise stores every
file's content, computes changes against the parent, records commit and
changes, and fast-forwards HEAD when it is null or equals `parent_id`. -/
def push_commit (st : State) (data : PushData) : PushResult × State :=
  if ¬ validate_repo_name data.repo_name then (.invalidName, st)
  else
    let st := if amem st data.repo_name then st
              else aset st data.repo_name Repo.init
    let repo := (alookup st data.repo_name).getD Repo.init
    if amem repo.graph.commits data.id then (.duplicate data.id, st)
    else
      let stored := storeFiles repo data.files
      let files_hashes := stored.1
      let repo1 := stored.2
      match calculate_changes repo1 data.parent_id files_hashes with
      | none => (.error, aset st data.repo_name repo1)
      | some changes =>
        (.success changes.length,
         aset st data.repo_name (recordCommit repo1 data files_hashes changes))

/-- `get_commits(repo_name)`: summaries of every commit, stably sorted by
timestamp descending; `none` models the 404 for a missing repository. -/
def get_commits (st : State) (repo_name : String) : Option (List CommitSummary) :=
  (alookup st repo_name).map fun repo =>
    sortByKeyDesc (fun s => s.timestamp)
      (repo.graph.commits.map fun c =>
        ⟨c.1, c.2.message, c.2.author, c.2.timestamp, c.2.parent_id,
         match alookup repo.graph.changes c.1 with
         | some chs => chs.length
         | none => 0⟩)

/-- `check_commit(repo_name, commit_id)`: the `exists` flag, `none` for a
missing repository. -/
def check_commit (st : State) (repo_name commit_id : String) : Option Bool :=
  (alookup st repo_name).map fun repo => amem repo.graph.commits commit_id

/-- The recursive `visit` of `pull_commits`: postorder DFS through parent
links over the source's `commits` dict, memoised by the `visited` set.
Fuel-based so the kernel can evaluate it; since every recursion step adds
an unvisited id to `visited` and only ids of source commits recurse,
`|commits| + 2` fuel per top-level call always suffices. -/
def visit (commits : List (String × CommitData)) :
    Nat → List String → List String → String → List String × List String
  | 0, visited, order, _ => (visited, order)
  | fuel + 1, visited, order, cid =>
    if cid ∈ visited then (visited, order)
    else
      let visited := cid :: visited
      let r :=
        match alookup commits cid with
        | some cd =>
          if pyTruthy cd.parent_id then
            visit commits fuel visited order (cd.parent_id.getD "")
          else (visited, order)
        | none => (visited, order)
      (r.1, r.2 ++ [cid])

/-- `commit_order`: run `visit` from every source commit in dict order. -/
def pullOrder (commits : List (String × CommitData)) : List String :=
  (commits.foldl
    (fun (acc : List String × List String) c =>
      visit commits (commits.length + 2) acc.1 acc.2 c.1)
    ([], [])).2

/-- Copy one commit's blobs from the source objects directory into the
target's, rebuilding the `files` dict with target-side hashes.  `none`
in the first component models the exception raised when a referenced
object is missing from the source store (`calculate_hash(None)`); the
second component is the target objects directory as mutated so far. -/
def copyBlobs (srcObjects : List (String × String)) :
    List (String × String) → List (String × String) → List (String × String) →
    Option (List (String × String)) × List (String × String)
  | [], fd, objs => (some fd, objs)
  | fh :: rest, fd, objs =>
    match alookup srcObjects fh.2 with
    | none => (none, objs)
    | some content =>
      let r := store_object_fs objs content
      copyBlobs srcObjects rest (fd ++ [(fh.1, r.1)]) r.2

/-- The in-flight state of a pull: the target's in-memory `graph.json`
document, its on-disk objects directory, the `target_commit_ids` set and
the two counters. -/
structure PullLoop where
  g : GraphData
  objs : List (String × String)
  targetIds : List String
  pulled : Nat
  skipped : Nat
deriving DecidableEq, Repr

/-- The body of one applied pull iteration: insert the commit into the
in-memory target document, copy its change record when the source has one,
advance HEAD and branch `main` only while target HEAD is null, extend the
`target_commit_ids` set and bump `pulled_commits`. -/
def applyPulled (srcChanges : List (String × List (String × ChangeRecord)))
    (s : PullLoop) (cid : String) (cd : CommitData)
    (fd : List (String × String)) (objs : List (String × String)) : PullLoop :=
  let newCommit : CommitData :=
    ⟨cd.message, cd.author, cd.timestamp, cd.parent_id, fd⟩
  let g : GraphData := { s.g with commits := aset s.g.commits cid newCommit }
  let g : GraphData :=
    match alookup srcChanges cid with
    | some chs => { g with changes := aset g.changes cid chs }
    | none => g
  let g := if g.head = none then
             { g with head := some cid, branches_main := some cid }
           else g
  { g := g, objs := objs, targetIds := cid :: s.targetIds,
    pulled := s.pulled + 1, skipped := s.skipped }

/-- The `for commit_id in commit_order` loop of `pull_commits`.  `false`
models the exception path (`KeyError` on a dangling id, or a missing
source blob): the loop stops, `graph.json` is never rewritten, but blobs
already copied stay on disk. -/
def pullLoop (srcCommits : List (String × CommitData))
    (srcChanges : List (String × List (String × ChangeRecord)))
    (srcObjects : List (String × String)) :
    List String → PullLoop → Bool × PullLoop
  | [], s => (true, s)
  | cid :: rest, s =>
    if cid ∈ s.targetIds then
      pullLoop srcCommits srcChanges srcObjects rest
        { s with skipped := s.skipped + 1 }
    else
      match alookup srcCommits cid with
      | none => (false, s)
      | some cd =>
        if pyTruthy cd.parent_id ∧ (cd.parent_id.getD "") ∉ s.targetIds then
          pullLoop srcCommits srcChanges srcObjects rest s
        else
          match copyBlobs srcObjects cd.files [] s.objs with
          | (none, objs) => (false, { s with objs := objs })
          | (some fd, objs) =>
            pullLoop srcCommits srcChanges srcObjects rest
              (applyPulled srcChanges s cid cd fd objs)

/-- `pull_commits(source, target)`: create the target if absent, visit the
source's commits in `pullOrder`, skip the ones already present, silently
pass over the ones whose required parent is not yet in the target, copy
blobs/commit/changes for the rest, and set target HEAD only while it is
null.  On the exception path the target's `graph.json` is not rewritten. -/
def pull_commits (st : State) (source_repo target_repo : String) :
    PullResult × State :=
  if ¬ (validate_repo_name source_repo ∧ validate_repo_name target_repo) then
    (.invalidName, st)
  else
    match alookup st source_repo with
    | none => (.sourceNotFound, st)
    | some src =>
      let st := if amem st target_repo then st
                else aset st target_repo Repo.init
      let tgt := (alookup st target_repo).getD Repo.init
      let s0 : PullLoop :=
        ⟨tgt.graph, tgt.objects, tgt.graph.commits.map Prod.fst, 0, 0⟩
      match pullLoop src.graph.commits src.graph.changes src.objects
          (pullOrder src.graph.commits) s0 with
      | (false, s) => (.error, aset st target_repo { tgt with objects := s.objs })
      | (true, s) =>
        (.success s.pulled s.skipped,
         aset st target_repo { graph := s.g, objects := s.objs })

/-- `clone_repo(source, target)`: after name/source/target validation,
copy the whole objects directory and the `commits`, `changes`, `branches`
and `HEAD` keys verbatim; report the commit count and the number of
distinct file paths. -/
def clone_repo (st : State) (source_repo target_repo : String) :
    CloneResult × State :=
  if ¬ (validate_repo_name source_repo ∧ validate_repo_name target_repo) then
    (.invalidName, st)
  else
    match alookup st source_repo with
    | none => (.sourceNotFound, st)
    | some src =>
      if amem st target_repo then (.targetExists, st)
      else
        let tgt : Repo := ⟨⟨src.graph.commits, src.graph.changes,
                            src.graph.branches_main, src.graph.head⟩, src.objects⟩
        let commit_count := src.graph.commits.length
        let file_count :=
          (dedupFirst ((src.graph.commits.map fun c => c.2.files.map Prod.fst).flatten)).length
        (.successGraph commit_count file_count, aset st target_repo tgt)

end GraphDB

namespace SqliteFS

/-!
## Relational backend (`src/implementations/sqlite_fs_impl.py`)

One repository is its `vcs.db`: the `commits`, `files` and `changes`
tables as row lists in insertion (rowid) order.  This backend keeps file
contents in the `files` table and has no HEAD or branch state at all.
-/

/-- A row of the `commits` table. -/
structure CommitRow where
  id : String
  message : String
  author : String
  timestamp : String
  parent_id : Option String
deriving DecidableEq, Repr

/-- A row of the `files` table (content is stored in the database). -/
structure FileRow where
  commit_id : String
  file_path : String
  file_hash : String
  content : String
deriving DecidableEq, Repr

/-- A row of the `changes` table (`record` bundles its `status`, `diff`,
`previous_hash`, `current_hash` columns). -/
structure ChangeRow where
  commit_id : String
  file_path : String
  record : VHub.ChangeRecord
deriving DecidableEq, Repr

/-- A repository database. -/
structure Repo where
  commits : List CommitRow
  files : List FileRow
  changes : List ChangeRow
deriving DecidableEq, Repr

/-- `init_repo_db`: three empty tables. -/
def Repo.init : Repo := ⟨[], [], []⟩

/-- The backend's base directory: repository name → database. -/
abbrev State := List (String × Repo)

open VHub

/-- `SELECT 1 FROM commits WHERE id = ? LIMIT 1` as a boolean. -/
def commitExists (repo : Repo) (cid : String) : Bool :=
  (repo.commits.find? fun r => r.id = cid).isSome

/-- One path of the `calculate_changes` loop — same record construction
as the graph backend's, duplicated in the source.  Outer `none` models the
`AttributeError` when a `None` content reaches `.splitlines()`. -/
def changeEntry (parent_files current_files : List (String × FileEntry))
    (p : String) : Option (Option ChangeRecord) :=
  match alookup current_files p, alookup parent_files p with
  | some cf, none => some (some ⟨"added", none, none, some cf.hash⟩)
  | none, some pf => some (some ⟨"deleted", none, some pf.hash, none⟩)
  | some cf, some pf =>
    if cf.hash ≠ pf.hash then
      match pf.content, cf.content with
      | some pc, some cc =>
        some (some ⟨"modified", some (diffText pc cc p), some pf.hash, some cf.hash⟩)
      | _, _ => none
    else some none
  | none, none => some none

/-- The `for file_path in all_paths` loop of `calculate_changes`. -/
def changesLoop (parent_files current_files : List (String × FileEntry)) :
    List String → Option (List (String × ChangeRecord))
  | [] => some []
  | p :: ps => do
    let e ← changeEntry parent_files current_files p
    let rest ← changesLoop parent_files current_files ps
    match e with
    | some r => pure ((p, r) :: rest)
    | none => pure rest

/-- `calculate_changes` for a parent-bearing commit, given the two
`{path: {hash, content}}` maps already built. -/
def changes_from_maps (parent_files current_files : List (String × FileEntry)) :
    Option (List (String × ChangeRecord)) :=
  changesLoop parent_files current_files
    (dedupFirst (parent_files.map Prod.fst ++ current_files.map Prod.fst))

/-- `calculate_changes(conn, commit_data)`: all-added when `parent_id` is
falsy; otherwise the parent map is read from the `files` table and the
current map is the request's own `files` dict (caller-supplied hashes). -/
def calculate_changes (repo : Repo) (parent_id : Option String)
    (files : List (String × PushFile)) : Option (List (String × ChangeRecord)) :=
  if ¬ pyTruthy parent_id then
    some (files.map fun pf => (pf.1, ⟨"added", none, none, some pf.2.hash⟩))
  else
    let parent_files : List (String × FileEntry) :=
      (repo.files.filter fun r => r.commit_id = parent_id.getD "").map
        fun r => (r.file_path, ⟨r.file_hash, some r.content⟩)
    let current_files : List (String × FileEntry) :=
      files.map fun pf => (pf.1, ⟨pf.2.hash, some pf.2.content⟩)
    changes_from_maps parent_files current_files

/-- `push_commit(data)`.  Creates the repository if absent; a duplicate
`id` is a 200 no-op; a truthy `parent_id` absent from `commits` is
rejected with HTTP 400 before anything is inserted; otherwise inserts the
commit row, the file rows (caller-supplied hash and content), computes
changes (the new rows are already visible on the connection) and inserts
the change rows, committing the transaction at the end. -/
def push_commit (st : State) (data : PushData) : PushResult × State :=
  if ¬ validate_repo_name data.repo_name then (.invalidName, st)
  else
    let st := if amem st data.repo_name then st
              else aset st data.repo_name Repo.init
    let repo := (alookup st data.repo_name).getD Repo.init
    if commitExists repo data.id then (.duplicate data.id, st)
    else if pyTruthy data.parent_id ∧ ¬ commitExists repo (data.parent_id.getD "") then
      (.parentNotFound (data.parent_id.getD ""), st)
    else
      let repo1 : Repo :=
        { repo with
          commits := repo.commits ++
            [⟨data.id, data.message, data.author, data.timestamp, data.parent_id⟩],
          files := repo.files ++
            data.files.map fun pf => ⟨data.id, pf.1, pf.2.hash, pf.2.content⟩ }
      match calculate_changes repo1 data.parent_id data.files with
      | none => (.error, st)
      | some changes =>
        let repo2 : Repo :=
          { repo1 with changes := repo1.changes ++
              changes.map fun c => ⟨data.id, c.1, c.2⟩ }
        (.success changes.length, aset st data.repo_name repo2)

/-- `get_commits(repo_name)`: all commit rows ordered by timestamp
descending, each with its count of change rows; `none` models the 404. -/
def get_commits (st : State) (repo_name : String) : Option (List CommitSummary) :=
  (alookup st repo_name).map fun repo =>
    (sortByKeyDesc (fun r : CommitRow => r.timestamp) repo.commits).map fun r =>
      ⟨r.id, r.message, r.author, r.timestamp, r.parent_id,
       (repo.changes.filter fun ch => ch.commit_id = r.id).length⟩

/-- `check_commit(repo_name, commit_id)`. -/
def check_commit (st : State) (repo_name commit_id : String) : Option Bool :=
  (alookup st repo_name).map fun repo => commitExists repo commit_id

/-- Apply one source commit inside the pull loop: copy its file rows and
change rows verbatim and insert the commit row. -/
def applyCommit (src : Repo) (tgt : Repo) (c : CommitRow) : Repo :=
  let files := src.files.filter fun f => f.commit_id = c.id
  let changes := src.changes.filter fun ch => ch.commit_id = c.id
  { tgt with
    commits := tgt.commits ++ [c],
    files := tgt.files ++ files.map fun f => ⟨c.id, f.file_path, f.file_hash, f.content⟩,
    changes := tgt.changes ++ changes.map fun ch => ⟨c.id, ch.file_path, ch.record⟩ }

/-- The `for commit in source_commits` loop of `pull_commits`: the rows
arrive ordered by timestamp ascending; an already-present id counts as
skipped; a commit whose truthy parent is not yet in the target is passed
over without counting; the rest are applied. -/
def pullLoop (src : Repo) :
    List CommitRow → Repo → List String → Nat → Nat → Repo × Nat × Nat
  | [], tgt, _, pulled, skipped => (tgt, pulled, skipped)
  | c :: rest, tgt, tgtIds, pulled, skipped =>
    if c.id ∈ tgtIds then pullLoop src rest tgt tgtIds pulled (skipped + 1)
    else if pyTruthy c.parent_id ∧ (c.parent_id.getD "") ∉ tgtIds then
      pullLoop src rest tgt tgtIds pulled skipped
    else
      pullLoop src rest (applyCommit src tgt c) (c.id :: tgtIds) (pulled + 1) skipped

/-- `pull_commits(source, target)`: create the target if absent, then run
the loop over the source's commits ordered by timestamp ascending.  This
backend never touches HEAD (it has none) and never errors in pure terms. -/
def pull_commits (st : State) (source_repo target_repo : String) :
    PullResult × State :=
  if ¬ (validate_repo_name source_repo ∧ validate_repo_name target_repo) then
    (.invalidName, st)
  else
    match alookup st source_repo with
    | none => (.sourceNotFound, st)
    | some src =>
      let st := if amem st target_repo then st
                else aset st target_repo Repo.init
      let tgt := (alookup st target_repo).getD Repo.init
      let sorted := sortByKeyAsc (fun r : CommitRow => r.timestamp) src.commits
      let r := pullLoop src sorted tgt (tgt.commits.map fun c => c.id) 0 0
      (.success r.2.1 r.2.2, aset st target_repo r.1)

/-- `clone_repo(source, target)`: validate, create the empty target, then
delegate to `pull_commits` and return its response. -/
def clone_repo (st : State) (source_repo target_repo : String) :
    CloneResult × State :=
  if ¬ (validate_repo_name source_repo ∧ validate_repo_name target_repo) then
    (.invalidName, st)
  else if ¬ amem st source_repo then (.sourceNotFound, st)
  else if amem st target_repo then (.targetExists, st)
  else
    let st := aset st target_repo Repo.init
    match pull_commits st source_repo target_repo with
    | (.success pulled skipped, st') => (.successPull pulled skipped, st')
    | (.invalidName, st') => (.invalidName, st')
    | (.sourceNotFound, st') => (.sourceNotFound, st')
    | (.error, st') => (.error, st')

end SqliteFS

/-!
## General lemmas about the dictionary and deduplication helpers
-/

theorem alookup_isSome_iff_mem (l : List (String × α)) (k : String) :
    (alookup l k).isSome = true ↔ k ∈ l.map Prod.fst := by
  induction l with
  | nil => simp [alookup]
  | cons p t ih =>
    obtain ⟨k', v⟩ := p
    by_cases h : k' = k
    · subst h
      simp [alookup]
    · simp only [alookup, if_neg h, List.map_cons, List.mem_cons]
      rw [ih]
      constructor
      · exact fun hm => Or.inr hm
      · rintro (hk | hm)
        · exact absurd hk.symm h
        · exact hm

theorem alookup_eq_none_iff_not_mem (l : List (String × α)) (k : String) :
    alookup l k = none ↔ k ∉ l.map Prod.fst := by
  rw [← alookup_isSome_iff_mem]
  cases alookup l k <;> simp

theorem alookup_mem (l : List (String × α)) (k : String) (v : α)
    (h : alookup l k = some v) : (k, v) ∈ l := by
  induction l with
  | nil => simp [alookup] at h
  | cons p t ih =>
    obtain ⟨k', v'⟩ := p
    by_cases hk : k' = k
    · subst hk
      simp [alookup] at h
      simp [h]
    · simp [alookup, hk] at h
      simp [ih h]

theorem alookup_map_pair (l : List (String × β)) (f : String → β → γ) (k : String) :
    alookup (l.map fun p => (p.1, f p.1 p.2)) k = (alookup l k).map (f k) := by
  induction l with
  | nil => simp [alookup]
  | cons p t ih =>
    obtain ⟨k', v⟩ := p
    by_cases h : k' = k
    · subst h
      simp [alookup]
    · simp [alookup, h, ih]

theorem keys_map_pair (l : List (String × β)) (f : String → β → γ) :
    (l.map fun p => (p.1, f p.1 p.2)).map Prod.fst = l.map Prod.fst := by
  induction l with
  | nil => rfl
  | cons p t ih => simp [ih]

theorem mem_dedupFirstGo (seen l : List String) (x : String) :
    x ∈ dedupFirstGo seen l ↔ x ∈ l ∧ x ∉ seen := by
  induction l generalizing seen with
  | nil => simp [dedupFirstGo]
  | cons y t ih =>
    by_cases hy : y ∈ seen
    · rw [show dedupFirstGo seen (y :: t) = dedupFirstGo seen t from by
        simp [dedupFirstGo, hy]]
      rw [ih]
      constructor
      · rintro ⟨hx, hs⟩
        exact ⟨List.mem_cons_of_mem y hx, hs⟩
      · rintro ⟨hx, hs⟩
        rcases List.mem_cons.mp hx with rfl | hh
        · exact absurd hy hs
        · exact ⟨hh, hs⟩
    · rw [show dedupFirstGo seen (y :: t) = y :: dedupFirstGo (y :: seen) t from by
        simp [dedupFirstGo, hy]]
      constructor
      · intro hx
        rcases List.mem_cons.mp hx with rfl | hh
        · exact ⟨List.mem_cons_self x t, hy⟩
        · obtain ⟨h1, h2⟩ := (ih (y :: seen)).mp hh
          exact ⟨List.mem_cons_of_mem y h1,
                 fun hs => h2 (List.mem_cons_of_mem y hs)⟩
      · rintro ⟨hx, hs⟩
        by_cases hxy : x = y
        · subst hxy
          exact List.mem_cons_self x _
        · rcases List.mem_cons.mp hx with hh | hh
          · exact absurd hh hxy
          · refine List.mem_cons_of_mem y ((ih (y :: seen)).mpr ⟨hh, ?_⟩)
            intro hmem
            rcases List.mem_cons.mp hmem with hh2 | hh2
            · exact hxy hh2
            · exact hs hh2

theorem mem_dedupFirst (l : List String) (x : String) :
    x ∈ dedupFirst l ↔ x ∈ l := by
  simp [dedupFirst, mem_dedupFirstGo]

theorem amem_aset_of_amem (l : List (String × α)) (k k' : String) (v : α)
    (h : amem l k = true) : amem (aset l k' v) k = true := by
  by_cases hk : k = k'
  · subst hk
    unfold amem
    rw [alookup_aset_self]
    rfl
  · unfold amem at h ⊢
    rw [alookup_aset_other _ _ _ _ hk]
    exact h

/-!
## Lemmas about the change-set computation
-/

namespace GraphDB

theorem changeEntry_ne_none_of_content
    (pf cf : List (String × FileEntry)) (p : String)
    (hp : ∀ fe, alookup pf p = some fe → fe.content.isSome = true)
    (hc : ∀ fe, alookup cf p = some fe → fe.content.isSome = true) :
    changeEntry pf cf p ≠ none := by
  unfold changeEntry
  cases hcf : alookup cf p with
  | none =>
    cases hpf : alookup pf p <;> simp
  | some fe1 =>
    cases hpf : alookup pf p with
    | none => simp
    | some fe2 =>
      by_cases hh : fe1.hash ≠ fe2.hash
      · have h1 := hc fe1 hcf
        have h2 := hp fe2 hpf
        obtain ⟨c1, hc1⟩ := Option.isSome_iff_exists.mp h1
        obtain ⟨c2, hc2⟩ := Option.isSome_iff_exists.mp h2
        simp [hh, hc1, hc2]
      · simp [hh]

theorem changesLoop_lookup (pf cf : List (String × FileEntry))
    (paths : List String)
    (h : ∀ q ∈ paths, changeEntry pf cf q ≠ none) :
    ∃ L, changesLoop pf cf paths = some L ∧
      ∀ p, alookup L p =
        if p ∈ paths then (changeEntry pf cf p).getD none else none := by
  induction paths with
  | nil => exact ⟨[], rfl, fun p => by simp [alookup]⟩
  | cons q qs ih =>
    have hq := h q (List.mem_cons_self q qs)
    obtain ⟨e, he⟩ : ∃ e, changeEntry pf cf q = some e := by
      cases hh : changeEntry pf cf q with
      | none => exact absurd hh hq
      | some v => exact ⟨v, rfl⟩
    obtain ⟨L, hL, hlook⟩ := ih (fun r hr => h r (List.mem_cons_of_mem q hr))
    cases e with
    | none =>
      refine ⟨L, by simp [changesLoop, he, hL], ?_⟩
      intro p
      by_cases hpq : p = q
      · subst hpq
        rw [hlook]
        by_cases hin : p ∈ qs
        · simp [hin, he]
        · simp [hin, he]
      · rw [hlook]
        simp [List.mem_cons, hpq]
    | some r =>
      refine ⟨(q, r) :: L, by simp [changesLoop, he, hL], ?_⟩
      intro p
      by_cases hpq : p = q
      · subst hpq
        simp [alookup, he]
      · have : q ≠ p := fun hh => hpq hh.symm
        rw [show alookup ((q, r) :: L) p = alookup L p from by simp [alookup, this]]
        rw [hlook]
        simp [List.mem_cons, hpq]

end GraphDB

/-- The two backends' per-path change records coincide (the loop bodies are
duplicated in the source). -/
theorem sqlite_changeEntry_eq (pf cf : List (String × FileEntry)) (p : String) :
    SqliteFS.changeEntry pf cf p = GraphDB.changeEntry pf cf p := by
  unfold SqliteFS.changeEntry GraphDB.changeEntry
  cases alookup cf p with
  | none => cases alookup pf p <;> rfl
  | some fe1 =>
    cases alookup pf p with
    | none => rfl
    | some fe2 =>
      by_cases hh : fe1.hash ≠ fe2.hash
      · cases fe2.content <;> cases fe1.content <;> simp [hh]
      · simp [hh]

/-- The two backends' change loops coincide. -/
theorem sqlite_changesLoop_eq (pf cf : List (String × FileEntry))
    (paths : List String) :
    SqliteFS.changesLoop pf cf paths = GraphDB.changesLoop pf cf paths := by
  induction paths with
  | nil => rfl
  | cons q qs ih =>
    simp [SqliteFS.changesLoop, GraphDB.changesLoop, sqlite_changeEntry_eq, ih]

theorem alookup_append (l1 l2 : List (String × α)) (k : String) :
    alookup (l1 ++ l2) k =
      match alookup l1 k with
      | some v => some v
      | none => alookup l2 k := by
  induction l1 with
  | nil => simp [alookup]
  | cons p t ih =>
    obtain ⟨k', v'⟩ := p
    by_cases h : k' = k <;> simp [alookup, h, ih]

theorem amem_append_key (l : List (String × α)) (k : String) (v : α) :
    amem (l ++ [(k, v)]) k = true := by
  unfold amem
  rw [alookup_append]
  cases h : alookup l k <;> simp [alookup]

namespace GraphDB

/-- A parent-less (or empty-parent) change loop never raises. -/
theorem changeEntry_parent_nil_ne_none (cf : List (String × FileEntry))
    (q : String) : changeEntry [] cf q ≠ none := by
  unfold changeEntry
  cases alookup cf q <;> simp [alookup]

theorem storeFiles_graph (files : List (String × PushFile)) (repo : Repo) :
    (storeFiles repo files).2.graph = repo.graph := by
  induction files generalizing repo with
  | nil => rfl
  | cons pf rest ih => simp [storeFiles, store_object, store_object_fs, ih]

theorem storeFiles_hashes (files : List (String × PushFile)) (repo : Repo) :
    (storeFiles repo files).1 =
      files.map fun pf => (pf.1, calculate_hash pf.2.content) := by
  induction files generalizing repo with
  | nil => rfl
  | cons pf rest ih => simp [storeFiles, store_object, store_object_fs, ih]

theorem recordCommit_objects (r : Repo) (d : PushData)
    (f : List (String × String)) (L : List (String × ChangeRecord)) :
    (recordCommit r d f L).objects = r.objects := by
  simp only [recordCommit]

theorem recordCommit_commits (r : Repo) (d : PushData)
    (f : List (String × String)) (L : List (String × ChangeRecord)) :
    (recordCommit r d f L).graph.commits =
      aset r.graph.commits d.id
        ⟨d.message, d.author, d.timestamp, d.parent_id, f⟩ := by
  simp only [recordCommit]
  split <;> rfl

theorem recordCommit_changes (r : Repo) (d : PushData)
    (f : List (String × String)) (L : List (String × ChangeRecord)) :
    (recordCommit r d f L).graph.changes = aset r.graph.changes d.id L := by
  simp only [recordCommit]
  split <;> rfl

theorem recordCommit_head (r : Repo) (d : PushData)
    (f : List (String × String)) (L : List (String × ChangeRecord)) :
    (recordCommit r d f L).graph.head =
      (if r.graph.head = none ∨ r.graph.head = d.parent_id
       then some d.id else r.graph.head) := by
  simp only [recordCommit]
  split <;> rfl

theorem recordCommit_branches (r : Repo) (d : PushData)
    (f : List (String × String)) (L : List (String × ChangeRecord)) :
    (recordCommit r d f L).graph.branches_main =
      (if r.graph.head = none ∨ r.graph.head = d.parent_id
       then some d.id else r.graph.branches_main) := by
  simp only [recordCommit]
  split <;> rfl

/-- Anatomy of a successful fresh push: the exact result and final state. -/
theorem push_commit_success_anatomy (st : State) (data : PushData) (repo : Repo)
    (hv : validate_repo_name data.repo_name = true)
    (hl : alookup st data.repo_name = some repo)
    (hdup : amem repo.graph.commits data.id = false)
    (L : List (String × ChangeRecord))
    (hcalc : calculate_changes (storeFiles repo data.files).2 data.parent_id
      (storeFiles repo data.files).1 = some L) :
    push_commit st data = (.success L.length,
      aset st data.repo_name
        (recordCommit (storeFiles repo data.files).2 data
          (storeFiles repo data.files).1 L)) := by
  have hmem : amem st data.repo_name = true := by simp [amem, hl]
  unfold push_commit
  simp [hv, hmem, hl, hdup, hcalc]

/-- Looking up in a `{path: {hash, content}}` map built from a
`path → hash` dict fetches the hash and the stored content. -/
theorem alookup_buildFileMap (repo : Repo) (l : List (String × String))
    (k : String) :
    alookup (buildFileMap repo l) k =
    (alookup l k).map fun h => ⟨h, get_object_content repo h⟩ := by
  induction l with
  | nil => simp [alookup, buildFileMap]
  | cons p t ih =>
    obtain ⟨k', v⟩ := p
    by_cases h : k' = k
    · subst h
      simp [alookup, buildFileMap]
    · simpa [alookup, buildFileMap, h] using ih

theorem keys_buildFileMap (repo : Repo) (l : List (String × String)) :
    (buildFileMap repo l).map Prod.fst = l.map Prod.fst := by
  induction l with
  | nil => rfl
  | cons p t ih =>
    simp only [buildFileMap, List.map_cons] at ih ⊢
    rw [ih]

/-- Full characterization of `changes_from_maps` over maps built from two
`path → hash` dicts whose referenced objects are all present: the change
set exists (no exception) and each path's record follows the
added/deleted/modified/omitted case split of the source loop. -/
theorem changes_from_maps_built_spec (repo : Repo)
    (pfl cfl : List (String × String))
    (hp : ∀ ph ∈ pfl, amem repo.objects ph.2 = true)
    (hc : ∀ fh ∈ cfl, amem repo.objects fh.2 = true) :
    ∃ L, changes_from_maps (buildFileMap repo pfl) (buildFileMap repo cfl) =
        some L ∧
      (∀ p h, alookup cfl p = some h → alookup pfl p = none →
        alookup L p = some ⟨"added", none, none, some h⟩) ∧
      (∀ p h, alookup cfl p = none → alookup pfl p = some h →
        alookup L p = some ⟨"deleted", none, some h, none⟩) ∧
      (∀ p hcur hpar, alookup cfl p = some hcur → alookup pfl p = some hpar →
        hpar ≠ hcur →
        ∃ d, alookup L p = some ⟨"modified", some d, some hpar, some hcur⟩) ∧
      (∀ p hcur hpar, alookup cfl p = some hcur → alookup pfl p = some hpar →
        hpar = hcur → alookup L p = none) ∧
      (∀ p, alookup cfl p = none → alookup pfl p = none →
        alookup L p = none) := by
  have hcontent : ∀ (l : List (String × String))
      (hall : ∀ e ∈ l, amem repo.objects e.2 = true) (q : String) (fe : FileEntry),
      alookup (buildFileMap repo l) q = some fe → fe.content.isSome = true := by
    intro l hall q fe hfe
    rw [alookup_buildFileMap] at hfe
    cases hlq : alookup l q with
    | none => rw [hlq] at hfe; simp at hfe
    | some h =>
      rw [hlq] at hfe
      simp only [Option.map_some'] at hfe
      have hm := alookup_mem l q h hlq
      have hobj := hall (q, h) hm
      unfold amem at hobj
      have hfe2 : fe = ⟨h, get_object_content repo h⟩ := by
        injection hfe with hh
        exact hh.symm
      subst hfe2
      simpa [get_object_content] using hobj
  have hn : ∀ q ∈ dedupFirst ((buildFileMap repo pfl).map Prod.fst ++
      (buildFileMap repo cfl).map Prod.fst),
      changeEntry (buildFileMap repo pfl) (buildFileMap repo cfl) q ≠ none := by
    intro q _
    exact changeEntry_ne_none_of_content _ _ q
      (hcontent pfl hp q) (hcontent cfl hc q)
  obtain ⟨L, hL, hlook⟩ := changesLoop_lookup _ _ _ hn
  have hmemPaths : ∀ p, (p ∈ dedupFirst ((buildFileMap repo pfl).map Prod.fst ++
      (buildFileMap repo cfl).map Prod.fst)) ↔
      (p ∈ pfl.map Prod.fst ∨ p ∈ cfl.map Prod.fst) := by
    intro p
    rw [mem_dedupFirst, List.mem_append, keys_buildFileMap, keys_buildFileMap]
  refine ⟨L, by unfold changes_from_maps; exact hL, ?_, ?_, ?_, ?_, ?_⟩
  · intro p h hcp hpp
    rw [hlook, if_pos ((hmemPaths p).mpr (Or.inr
      ((alookup_isSome_iff_mem cfl p).mp (by simp [hcp]))))]
    unfold changeEntry
    rw [alookup_buildFileMap, alookup_buildFileMap, hcp, hpp]
    rfl
  · intro p h hcp hpp
    rw [hlook, if_pos ((hmemPaths p).mpr (Or.inl
      ((alookup_isSome_iff_mem pfl p).mp (by simp [hpp]))))]
    unfold changeEntry
    rw [alookup_buildFileMap, alookup_buildFileMap, hcp, hpp]
    rfl
  · intro p hcur hpar hcp hpp hne
    have hisP : (alookup repo.objects hpar).isSome = true := by
      have := hp (p, hpar) (alookup_mem pfl p hpar hpp)
      unfold amem at this
      simpa using this
    have hisC : (alookup repo.objects hcur).isSome = true := by
      have := hc (p, hcur) (alookup_mem cfl p hcur hcp)
      unfold amem at this
      simpa using this
    obtain ⟨cp, hcp2⟩ := Option.isSome_iff_exists.mp hisP
    obtain ⟨cc, hcc2⟩ := Option.isSome_iff_exists.mp hisC
    refine ⟨diffText cp cc p, ?_⟩
    rw [hlook, if_pos ((hmemPaths p).mpr (Or.inr
      ((alookup_isSome_iff_mem cfl p).mp (by simp [hcp]))))]
    unfold changeEntry
    rw [alookup_buildFileMap, alookup_buildFileMap, hcp, hpp]
    simp only [Option.map_some']
    rw [if_pos (by simpa using fun hh => hne hh.symm)]
    unfold get_object_content
    rw [hcp2, hcc2]
    rfl
  · intro p hcur hpar hcp hpp heq
    subst heq
    rw [hlook]
    by_cases hmem : p ∈ dedupFirst ((buildFileMap repo pfl).map Prod.fst ++
        (buildFileMap repo cfl).map Prod.fst)
    · rw [if_pos hmem]
      unfold changeEntry
      rw [alookup_buildFileMap, alookup_buildFileMap, hcp, hpp]
      simp
    · rw [if_neg hmem]
  · intro p hcp hpp
    rw [hlook, if_neg]
    intro hmem
    rcases (hmemPaths p).mp hmem with hm | hm
    · rw [← alookup_isSome_iff_mem, hpp] at hm
      simp at hm
    · rw [← alookup_isSome_iff_mem, hcp] at hm
      simp at hm

/-- A push on a repository whose declared parent is absent still succeeds
(`calculate_changes` treats it as an empty parent map). -/
theorem calculate_changes_dangling (repo : Repo) (data : PushData) (p : String)
    (hp : data.parent_id = some p) (hpne : p ≠ "")
    (hparlook : alookup repo.graph.commits p = none) :
    ∃ L, calculate_changes (storeFiles repo data.files).2 data.parent_id
      (storeFiles repo data.files).1 = some L := by
  have hg := storeFiles_graph data.files repo
  have htr : pyTruthy data.parent_id = true := by simp [pyTruthy, hp, hpne]
  unfold calculate_changes
  rw [if_neg (by simp [htr])]
  rw [hp]
  simp only [Option.getD_some]
  rw [hg, hparlook]
  unfold changes_from_maps
  exact (changesLoop_lookup [] _ _
    (fun q _ => changeEntry_parent_nil_ne_none _ q)).imp (fun L h => h.1)

end GraphDB

/-!
## Sorting and pull-loop lemmas
-/

theorem insertByAsc_perm (key : α → String) (x : α) (l : List α) :
    (insertByAsc key x l).Perm (x :: l) := by
  induction l with
  | nil => exact List.Perm.refl _
  | cons y ys ih =>
    unfold insertByAsc
    by_cases h : pyStrLt (key x) (key y) = true
    · rw [if_pos h]
    · rw [if_neg h]
      exact (ih.cons y).trans (List.Perm.swap x y ys)

theorem insertByDesc_perm (key : α → String) (x : α) (l : List α) :
    (insertByDesc key x l).Perm (x :: l) := by
  induction l with
  | nil => exact List.Perm.refl _
  | cons y ys ih =>
    unfold insertByDesc
    by_cases h : pyStrLt (key y) (key x) = true
    · rw [if_pos h]
    · rw [if_neg h]
      exact (ih.cons y).trans (List.Perm.swap x y ys)

theorem foldl_insertByAsc_perm (key : α → String) (l acc : List α) :
    (l.foldl (fun a x => insertByAsc key x a) acc).Perm (acc ++ l) := by
  induction l generalizing acc with
  | nil => simp
  | cons x xs ih =>
    refine ((ih (insertByAsc key x acc)).trans ?_)
    exact ((insertByAsc_perm key x acc).append_right xs).trans
      List.perm_middle.symm

theorem foldl_insertByDesc_perm (key : α → String) (l acc : List α) :
    (l.foldl (fun a x => insertByDesc key x a) acc).Perm (acc ++ l) := by
  induction l generalizing acc with
  | nil => simp
  | cons x xs ih =>
    refine ((ih (insertByDesc key x acc)).trans ?_)
    exact ((insertByDesc_perm key x acc).append_right xs).trans
      List.perm_middle.symm

theorem sortByKeyAsc_perm (key : α → String) (l : List α) :
    (sortByKeyAsc key l).Perm l := by
  simpa using foldl_insertByAsc_perm key l []

theorem sortByKeyDesc_perm (key : α → String) (l : List α) :
    (sortByKeyDesc key l).Perm l := by
  simpa using foldl_insertByDesc_perm key l []

theorem charListLt_asymm (l1 l2 : List Char) (h : charListLt l1 l2 = true) :
    charListLt l2 l1 = false := by
  induction l1 generalizing l2 with
  | nil =>
    cases l2 with
    | nil => simp [charListLt] at h
    | cons d ds => simp [charListLt]
  | cons c cs ih =>
    cases l2 with
    | nil => simp [charListLt] at h
    | cons d ds =>
      unfold charListLt at h ⊢
      by_cases h1 : c.toNat < d.toNat
      · have h2 : ¬ d.toNat < c.toNat := by omega
        simp [h1, h2]
      · by_cases h2 : d.toNat < c.toNat
        · simp [h1, h2] at h
        · simp [h1, h2] at h ⊢
          exact ih ds h

theorem charListLt_trans (l1 l2 l3 : List Char)
    (h1 : charListLt l1 l2 = true) (h2 : charListLt l2 l3 = true) :
    charListLt l1 l3 = true := by
  induction l1 generalizing l2 l3 with
  | nil =>
    cases l2 with
    | nil => simp [charListLt] at h1
    | cons d ds =>
      cases l3 with
      | nil => simp [charListLt] at h2
      | cons e es => simp [charListLt]
  | cons c cs ih =>
    cases l2 with
    | nil => simp [charListLt] at h1
    | cons d ds =>
      cases l3 with
      | nil => simp [charListLt] at h2
      | cons e es =>
        unfold charListLt at h1 h2 ⊢
        by_cases hcd : c.toNat < d.toNat
        · by_cases hde : d.toNat < e.toNat
          · have hce : c.toNat < e.toNat := by omega
            simp [hce]
          · by_cases hed : e.toNat < d.toNat
            · simp [hde, hed] at h2
            · have hce : c.toNat < e.toNat := by omega
              simp [hce]
        · by_cases hdc : d.toNat < c.toNat
          · simp [hcd, hdc] at h1
          · have hcd2 : c.toNat = d.toNat := by omega
            by_cases hde : d.toNat < e.toNat
            · have hce : c.toNat < e.toNat := by omega
              simp [hce]
            · by_cases hed : e.toNat < d.toNat
              · simp [hde, hed] at h2
              · simp [hcd, hdc] at h1
                simp [hde, hed] at h2
                have hce : ¬ c.toNat < e.toNat := by omega
                have hec : ¬ e.toNat < c.toNat := by omega
                simp [hce, hec]
                exact ih ds es h1 h2

theorem charListLt_eq_of_both_false (l1 l2 : List Char)
    (h1 : charListLt l1 l2 = false) (h2 : charListLt l2 l1 = false) :
    l1 = l2 := by
  induction l1 generalizing l2 with
  | nil =>
    cases l2 with
    | nil => rfl
    | cons d ds => simp [charListLt] at h1
  | cons c cs ih =>
    cases l2 with
    | nil => simp [charListLt] at h2
    | cons d ds =>
      unfold charListLt at h1 h2
      by_cases hlt : c.toNat < d.toNat
      · simp [hlt] at h1
      · by_cases hgt : d.toNat < c.toNat
        · simp [hgt] at h2
        · have hc : c = d := by
            have heq : c.toNat = d.toNat := by omega
            exact Char.eq_of_val_eq (UInt32.eq_of_val_eq (Fin.eq_of_val_eq heq))
          simp [hlt, hgt] at h1 h2
          rw [hc, ih ds h1 h2]

theorem pyStrLt_eq_of_both_false (a b : String)
    (h1 : pyStrLt a b = false) (h2 : pyStrLt b a = false) : a = b := by
  cases a with
  | mk da =>
    cases b with
    | mk db =>
      unfold pyStrLt at h1 h2
      simp only at h1 h2
      rw [charListLt_eq_of_both_false da db h1 h2]

/-- Insertion keeps a weakly descending list weakly descending. -/
theorem insertByDesc_sorted (key : α → String) (x : α) (l : List α)
    (hl : l.Pairwise fun a b => pyStrLt (key a) (key b) = false) :
    (insertByDesc key x l).Pairwise
      fun a b => pyStrLt (key a) (key b) = false := by
  induction l with
  | nil => simp [insertByDesc]
  | cons y ys ih =>
    rcases List.pairwise_cons.mp hl with ⟨hy, hys⟩
    unfold insertByDesc
    by_cases h : pyStrLt (key y) (key x) = true
    · rw [if_pos h]
      refine List.pairwise_cons.mpr ⟨?_, hl⟩
      intro z hz
      rcases List.mem_cons.mp hz with rfl | hz2
      · unfold pyStrLt at h ⊢
        exact charListLt_asymm _ _ h
      · have hyz := hy z hz2
        unfold pyStrLt at h hyz ⊢
        cases hxz : charListLt (key x).data (key z).data
        · rfl
        · exfalso
          have htr := charListLt_trans _ _ _ h hxz
          simp [hyz] at htr
    · rw [if_neg h]
      refine List.pairwise_cons.mpr ⟨?_, ih hys⟩
      intro z hz
      have hz3 := (insertByDesc_perm key x ys).mem_iff.mp hz
      rcases List.mem_cons.mp hz3 with rfl | hz4
      · simpa using h
      · exact hy z hz4

/-- `sort(key=..., reverse=True)` produces a weakly descending list. -/
theorem sortByKeyDesc_sorted (key : α → String) (l : List α) :
    (sortByKeyDesc key l).Pairwise
      fun a b => pyStrLt (key a) (key b) = false := by
  have hgen : ∀ (l acc : List α),
      acc.Pairwise (fun a b => pyStrLt (key a) (key b) = false) →
      (l.foldl (fun a x => insertByDesc key x a) acc).Pairwise
        fun a b => pyStrLt (key a) (key b) = false := by
    intro l
    induction l with
    | nil => exact fun acc h => h
    | cons x xs ih => exact fun acc h => ih _ (insertByDesc_sorted key x acc h)
  exact hgen l [] List.Pairwise.nil

/-- With pairwise-distinct keys a weakly descending list is strictly
descending. -/
theorem pairwise_strict_of_nodup (key : α → String) (l : List α)
    (hnd : (l.map key).Nodup)
    (hs : l.Pairwise fun a b => pyStrLt (key a) (key b) = false) :
    l.Pairwise fun a b => pyStrLt (key b) (key a) = true := by
  have hne : l.Pairwise fun a b => key a ≠ key b := List.pairwise_map.mp hnd
  refine List.Pairwise.imp ?_ (hs.and hne)
  rintro a b ⟨h1, h2⟩
  cases hba : pyStrLt (key b) (key a)
  · exact absurd (pyStrLt_eq_of_both_false _ _ h1 hba) h2
  · rfl

/-- Two strictly descending permutations of the same list are equal. -/
theorem sorted_strict_unique (key : α → String) :
    ∀ (l1 l2 : List α), l1.Perm l2 →
      l1.Pairwise (fun a b => pyStrLt (key b) (key a) = true) →
      l2.Pairwise (fun a b => pyStrLt (key b) (key a) = true) →
      l1 = l2 := by
  intro l1
  induction l1 with
  | nil =>
    intro l2 hp _ _
    cases l2 with
    | nil => rfl
    | cons y t2 =>
      have := hp.length_eq
      simp at this
  | cons x t1 ih =>
    intro l2 hp hs1 hs2
    cases l2 with
    | nil =>
      have := hp.length_eq
      simp at this
    | cons y t2 =>
      rcases List.pairwise_cons.mp hs1 with ⟨hx1, ht1⟩
      rcases List.pairwise_cons.mp hs2 with ⟨hy2, ht2⟩
      have hxy : x = y := by
        by_contra hne
        have hxmem : x ∈ y :: t2 := hp.mem_iff.mp (List.mem_cons_self x t1)
        have hx2 : x ∈ t2 := by
          rcases List.mem_cons.mp hxmem with h | h
          · exact absurd h hne
          · exact h
        have hymem : y ∈ x :: t1 := hp.mem_iff.mpr (List.mem_cons_self y t2)
        have hy1 : y ∈ t1 := by
          rcases List.mem_cons.mp hymem with h | h
          · exact absurd h.symm hne
          · exact h
        have h1 := hx1 y hy1
        have h2 := hy2 x hx2
        unfold pyStrLt at h1 h2
        have := charListLt_asymm _ _ h1
        simp [this] at h2
      subst hxy
      rw [ih t2 hp.cons_inv ht1 ht2]

/-- With pairwise-distinct keys, sorting descending after an ascending
pre-sort gives the same list as sorting descending directly (the SQL
`ORDER BY timestamp DESC` of a pulled-in-ascending-order table equals the
source's). -/
theorem sortDesc_sortAsc (key : α → String) (l : List α)
    (hnd : (l.map key).Nodup) :
    sortByKeyDesc key (sortByKeyAsc key l) = sortByKeyDesc key l := by
  have hperm1 : (sortByKeyDesc key (sortByKeyAsc key l)).Perm l :=
    (sortByKeyDesc_perm key _).trans (sortByKeyAsc_perm key l)
  have hperm2 : (sortByKeyDesc key l).Perm l := sortByKeyDesc_perm key l
  apply sorted_strict_unique key _ _ (hperm1.trans hperm2.symm)
  · refine pairwise_strict_of_nodup key _ ?_ (sortByKeyDesc_sorted key _)
    exact (hperm1.map key).nodup_iff.mpr hnd
  · refine pairwise_strict_of_nodup key _ ?_ (sortByKeyDesc_sorted key _)
    exact (hperm2.map key).nodup_iff.mpr hnd

namespace GraphDB

/-- If every source commit id is already in the target-id set, the pull
loop mutates neither the in-memory graph nor the objects directory (every
id is either skipped or raises the dangling-id `KeyError`). -/
theorem pullLoop_skip_all (srcC : List (String × CommitData))
    (srcCh : List (String × List (String × ChangeRecord)))
    (srcO : List (String × String)) (order : List String) (s : PullLoop)
    (hsub : ∀ cid, amem srcC cid = true → cid ∈ s.targetIds) :
    (pullLoop srcC srcCh srcO order s).2.g = s.g ∧
    (pullLoop srcC srcCh srcO order s).2.objs = s.objs := by
  induction order generalizing s with
  | nil => exact ⟨rfl, rfl⟩
  | cons cid rest ih =>
    unfold pullLoop
    by_cases hin : cid ∈ s.targetIds
    · rw [if_pos hin]
      exact ih { s with skipped := s.skipped + 1 } hsub
    · rw [if_neg hin]
      cases hlk : alookup srcC cid with
      | none => exact ⟨rfl, rfl⟩
      | some cd =>
        exact absurd (hsub cid (by simp [amem, hlk])) hin

theorem applyPulled_commits (srcCh : List (String × List (String × ChangeRecord)))
    (s : PullLoop) (cid : String) (cd : CommitData)
    (fd : List (String × String)) (objs : List (String × String)) :
    (applyPulled srcCh s cid cd fd objs).g.commits =
      aset s.g.commits cid
        ⟨cd.message, cd.author, cd.timestamp, cd.parent_id, fd⟩ := by
  simp only [applyPulled]
  repeat' split
  all_goals rfl

theorem applyPulled_targetIds
    (srcCh : List (String × List (String × ChangeRecord)))
    (s : PullLoop) (cid : String) (cd : CommitData)
    (fd : List (String × String)) (objs : List (String × String)) :
    (applyPulled srcCh s cid cd fd objs).targetIds = cid :: s.targetIds := rfl

/-- Parent-closure of a graph document: every recorded commit's truthy
parent is itself recorded. -/
def parentClosed (g : GraphData) : Prop :=
  ∀ cid cd, alookup g.commits cid = some cd → pyTruthy cd.parent_id = true →
    amem g.commits (cd.parent_id.getD "") = true

/-- The pull loop preserves parent-closure of the in-memory target
document: a commit is applied only when its required parent is already
among the target's commit ids. -/
theorem pullLoop_closed (srcC : List (String × CommitData))
    (srcCh : List (String × List (String × ChangeRecord)))
    (srcO : List (String × String)) (order : List String) :
    ∀ (s : PullLoop),
      (∀ id, id ∈ s.targetIds ↔ amem s.g.commits id = true) →
      parentClosed s.g →
      ((∀ id, id ∈ (pullLoop srcC srcCh srcO order s).2.targetIds ↔
        amem (pullLoop srcC srcCh srcO order s).2.g.commits id = true) ∧
       parentClosed (pullLoop srcC srcCh srcO order s).2.g) := by
  induction order with
  | nil => exact fun s hinv hcl => ⟨hinv, hcl⟩
  | cons cid rest ih =>
    intro s hinv hcl
    unfold pullLoop
    by_cases hin : cid ∈ s.targetIds
    · rw [if_pos hin]
      exact ih _ hinv hcl
    · rw [if_neg hin]
      cases hlk : alookup srcC cid with
      | none => exact ⟨hinv, hcl⟩
      | some cd =>
        dsimp only
        by_cases hskip : pyTruthy cd.parent_id = true ∧
            (cd.parent_id.getD "") ∉ s.targetIds
        · rw [if_pos hskip]
          exact ih _ hinv hcl
        · rw [if_neg hskip]
          cases hcb : copyBlobs srcO cd.files [] s.objs with
          | mk ofd objs =>
            cases ofd with
            | none => exact ⟨hinv, hcl⟩
            | some fd =>
              apply ih
              · intro id
                rw [applyPulled_targetIds, applyPulled_commits]
                constructor
                · intro hmem
                  rcases List.mem_cons.mp hmem with rfl | hmem2
                  · unfold amem
                    rw [alookup_aset_self]
                    rfl
                  · exact amem_aset_of_amem _ _ _ _ ((hinv id).mp hmem2)
                · intro hmem
                  by_cases hid : id = cid
                  · exact hid ▸ List.mem_cons_self _ _
                  · refine List.mem_cons_of_mem _ ((hinv id).mpr ?_)
                    unfold amem at hmem ⊢
                    rw [alookup_aset_other _ _ _ _ hid] at hmem
                    exact hmem
              · intro cid2 cd2 hlk2 htr2
                rw [applyPulled_commits] at hlk2 ⊢
                by_cases hid : cid2 = cid
                · subst hid
                  rw [alookup_aset_self] at hlk2
                  cases hlk2
                  have hpar : (cd.parent_id.getD "") ∈ s.targetIds := by
                    by_contra hc
                    exact hskip ⟨htr2, hc⟩
                  exact amem_aset_of_amem _ _ _ _ ((hinv _).mp hpar)
                · rw [alookup_aset_other _ _ _ _ hid] at hlk2
                  exact amem_aset_of_amem _ _ _ _ (hcl cid2 cd2 hlk2 htr2)

end GraphDB

namespace SqliteFS

/-- If every pulled row's id is already in the target-id set, the
relational pull loop leaves the target untouched. -/
theorem pullLoop_skip_all_sql (src : Repo) (rows : List CommitRow) (tgt : Repo)
    (tgtIds : List String) (p k : Nat)
    (hsub : ∀ c ∈ rows, c.id ∈ tgtIds) :
    (pullLoop src rows tgt tgtIds p k).1 = tgt := by
  induction rows generalizing p k with
  | nil => rfl
  | cons c rest ih =>
    unfold pullLoop
    rw [if_pos (hsub c (List.mem_cons_self c rest))]
    exact ih p (k + 1) (fun c' hc' => hsub c' (List.mem_cons_of_mem c hc'))

/-- Parent-closure of a relational repository: every commit row's truthy
parent id names another commit row. -/
def parentClosed (r : Repo) : Prop :=
  ∀ c ∈ r.commits, pyTruthy c.parent_id = true →
    ∃ p ∈ r.commits, p.id = c.parent_id.getD ""

/-- The relational pull loop preserves parent-closure of the target: a
commit row is inserted only when its required parent id is already in the
`target_commit_ids` set. -/
theorem pullLoop_closed_sql (src : Repo) (rows : List CommitRow) :
    ∀ (tgt : Repo) (tgtIds : List String) (p k : Nat),
      (∀ id, id ∈ tgtIds ↔ ∃ c ∈ tgt.commits, c.id = id) →
      parentClosed tgt →
      parentClosed (pullLoop src rows tgt tgtIds p k).1 := by
  induction rows with
  | nil => exact fun tgt tgtIds p k _ hcl => hcl
  | cons c rest ih =>
    intro tgt tgtIds p k hinv hcl
    unfold pullLoop
    by_cases hin : c.id ∈ tgtIds
    · rw [if_pos hin]
      exact ih _ _ _ _ hinv hcl
    · rw [if_neg hin]
      by_cases hskip : pyTruthy c.parent_id = true ∧
          (c.parent_id.getD "") ∉ tgtIds
      · rw [if_pos hskip]
        exact ih _ _ _ _ hinv hcl
      · rw [if_neg hskip]
        apply ih
        · intro id
          constructor
          · intro hm
            rcases List.mem_cons.mp hm with rfl | hm2
            · exact ⟨c, by simp [applyCommit], rfl⟩
            · obtain ⟨c2, hc2, hid⟩ := (hinv id).mp hm2
              exact ⟨c2, by simp [applyCommit, hc2], hid⟩
          · rintro ⟨c2, hc2, rfl⟩
            simp only [applyCommit, List.mem_append, List.mem_singleton] at hc2
            rcases hc2 with hc2 | rfl
            · exact List.mem_cons_of_mem _ ((hinv _).mpr ⟨c2, hc2, rfl⟩)
            · exact List.mem_cons_self _ _
        · intro c2 hc2 htr2
          simp only [applyCommit, List.mem_append, List.mem_singleton] at hc2
          rcases hc2 with hc2 | rfl
          · obtain ⟨pp, hpp, hpid⟩ := hcl c2 hc2 htr2
            exact ⟨pp, by simp [applyCommit, hpp], hpid⟩
          · have hpar : (c2.parent_id.getD "") ∈ tgtIds := by
              by_contra hcon
              exact hskip ⟨htr2, hcon⟩
            obtain ⟨pp, hpp, hpid⟩ := (hinv _).mp hpar
            exact ⟨pp, by simp [applyCommit, hpp], hpid⟩

end SqliteFS

namespace GraphDB

/-- Pull writes only the target's entry of the backend state. -/
theorem pull_frame_other (st : State) (s t u : String) (hu : u ≠ t) :
    alookup (pull_commits st s t).2 u = alookup st u := by
  unfold pull_commits
  by_cases hv : validate_repo_name s = true ∧ validate_repo_name t = true
  · rw [if_neg (by simp [hv.1, hv.2])]
    cases hs : alookup st s with
    | none => rfl
    | some src =>
      dsimp only
      by_cases ht : amem st t = true
      · simp only [ht, if_true]
        split <;>
          exact alookup_aset_other _ _ _ _ hu
      · simp only [ht, if_false]
        split <;>
          rw [alookup_aset_other _ _ _ _ hu, if_neg (by simp),
            alookup_aset_other _ _ _ _ hu]
  · rw [if_pos (by simpa using fun h1 h2 => hv ⟨h1, h2⟩)]

/-- Pull never modifies the source repository, even when source and
target coincide. -/
theorem pull_frame_self (st : State) (s t : String) :
    alookup (pull_commits st s t).2 s = alookup st s := by
  by_cases hst : s = t
  · subst hst
    unfold pull_commits
    by_cases hv : validate_repo_name s = true
    · rw [if_neg (by simp [hv])]
      cases hs : alookup st s with
      | none => exact hs
      | some src =>
        dsimp only
        have ht : amem st s = true := by simp [amem, hs]
        simp only [ht, if_true]
        rw [hs]
        simp only [Option.getD_some]
        have hskip := pullLoop_skip_all src.graph.commits src.graph.changes
          src.objects (pullOrder src.graph.commits)
          ⟨src.graph, src.objects, src.graph.commits.map Prod.fst, 0, 0⟩
          (fun cid hm => (alookup_isSome_iff_mem _ _).mp hm)
        split
        next sl heq =>
          rw [heq] at hskip
          rw [show ({ src with objects := sl.objs } : Repo) = src from by
            rw [hskip.2]]
          rw [alookup_aset_self]
        next sl heq =>
          rw [heq] at hskip
          rw [show ({ graph := sl.g, objects := sl.objs } : Repo) = src from by
            rw [hskip.1, hskip.2]]
          rw [alookup_aset_self]
    · rw [if_pos (by simp [hv])]
  · exact pull_frame_other st s t s hst

/-- A pull leaves the target parent-closed whenever it was parent-closed
before (or did not exist and was created empty). -/
theorem pull_preserves_closed (st : State) (s t : String)
    (h0 : ∀ tgt, alookup st t = some tgt → parentClosed tgt.graph)
    (tgt' : Repo)
    (hres : alookup (pull_commits st s t).2 t = some tgt') :
    parentClosed tgt'.graph := by
  unfold pull_commits at hres
  by_cases hv : validate_repo_name s = true ∧ validate_repo_name t = true
  · rw [if_neg (by simp [hv.1, hv.2])] at hres
    cases hs : alookup st s with
    | none =>
      rw [hs] at hres
      exact h0 tgt' hres
    | some src =>
      rw [hs] at hres
      dsimp only at hres
      by_cases ht : amem st t = true
      · rw [if_pos ht] at hres
        obtain ⟨tgt0, htgt0⟩ := Option.isSome_iff_exists.mp ht
        rw [htgt0] at hres
        simp only [Option.getD_some] at hres
        have hcl0 := h0 tgt0 htgt0
        have hmain := pullLoop_closed src.graph.commits src.graph.changes
          src.objects (pullOrder src.graph.commits)
          ⟨tgt0.graph, tgt0.objects, tgt0.graph.commits.map Prod.fst, 0, 0⟩
          (fun id => (alookup_isSome_iff_mem tgt0.graph.commits id).symm) hcl0
        split at hres
        next sl heq =>
          rw [alookup_aset_self] at hres
          cases hres
          exact hcl0
        next sl heq =>
          rw [alookup_aset_self] at hres
          cases hres
          rw [heq] at hmain
          exact hmain.2
      · rw [if_neg ht] at hres
        rw [alookup_aset_self] at hres
        simp only [Option.getD_some] at hres
        have hmain := pullLoop_closed src.graph.commits src.graph.changes
          src.objects (pullOrder src.graph.commits)
          ⟨Repo.init.graph, Repo.init.objects,
           Repo.init.graph.commits.map Prod.fst, 0, 0⟩
          (fun id => (alookup_isSome_iff_mem Repo.init.graph.commits id).symm)
          (fun cid cd h _ => by simp [alookup, Repo.init, GraphData.init] at h)
        split at hres
        next sl heq =>
          rw [alookup_aset_self] at hres
          cases hres
          exact fun cid cd h htr => by
            simp [alookup, Repo.init, GraphData.init] at h
        next sl heq =>
          rw [alookup_aset_self] at hres
          cases hres
          rw [heq] at hmain
          exact hmain.2
  · rw [if_pos (by simpa using fun h1 h2 => hv ⟨h1, h2⟩)] at hres
    exact h0 tgt' hres

end GraphDB

namespace SqliteFS

/-- Pull writes only the target's entry of the backend state. -/
theorem pull_frame_other_sql (st : State) (s t u : String) (hu : u ≠ t) :
    alookup (pull_commits st s t).2 u = alookup st u := by
  unfold pull_commits
  by_cases hv : validate_repo_name s = true ∧ validate_repo_name t = true
  · rw [if_neg (by simp [hv.1, hv.2])]
    cases hs : alookup st s with
    | none => rfl
    | some src =>
      dsimp only
      by_cases ht : amem st t = true
      · simp only [ht, if_true]
        exact alookup_aset_other _ _ _ _ hu
      · simp only [ht, if_false]
        rw [alookup_aset_other _ _ _ _ hu, if_neg (by simp),
          alookup_aset_other _ _ _ _ hu]
  · rw [if_pos (by simpa using fun h1 h2 => hv ⟨h1, h2⟩)]

/-- Pull never modifies the source repository, even when source and
target coincide. -/
theorem pull_frame_self_sql (st : State) (s t : String) :
    alookup (pull_commits st s t).2 s = alookup st s := by
  by_cases hst : s = t
  · subst hst
    unfold pull_commits
    by_cases hv : validate_repo_name s = true
    · rw [if_neg (by simp [hv])]
      cases hs : alookup st s with
      | none => exact hs
      | some src =>
        dsimp only
        have ht : amem st s = true := by simp [amem, hs]
        simp only [ht, if_true]
        rw [hs]
        simp only [Option.getD_some]
        rw [pullLoop_skip_all_sql src _ src _ 0 0 (fun c hc => by
          have hm : c ∈ src.commits :=
            (sortByKeyAsc_perm (fun r : CommitRow => r.timestamp)
              src.commits).mem_iff.mp hc
          exact List.mem_map_of_mem (fun c => c.id) hm)]
        rw [alookup_aset_self]
    · rw [if_pos (by simp [hv])]
  · exact pull_frame_other_sql st s t s hst

/-- A pull leaves the target parent-closed whenever it was parent-closed
before (or did not exist and was created empty). -/
theorem pull_preserves_closed_sql (st : State) (s t : String)
    (h0 : ∀ tgt, alookup st t = some tgt → parentClosed tgt)
    (tgt' : Repo)
    (hres : alookup (pull_commits st s t).2 t = some tgt') :
    parentClosed tgt' := by
  unfold pull_commits at hres
  by_cases hv : validate_repo_name s = true ∧ validate_repo_name t = true
  · rw [if_neg (by simp [hv.1, hv.2])] at hres
    cases hs : alookup st s with
    | none =>
      rw [hs] at hres
      exact h0 tgt' hres
    | some src =>
      rw [hs] at hres
      dsimp only at hres
      by_cases ht : amem st t = true
      · rw [if_pos ht] at hres
        obtain ⟨tgt0, htgt0⟩ := Option.isSome_iff_exists.mp ht
        rw [htgt0] at hres
        simp only [Option.getD_some] at hres
        rw [alookup_aset_self] at hres
        cases hres
        refine pullLoop_closed_sql src _ tgt0 _ 0 0 (fun id => ?_) (h0 tgt0 htgt0)
        simp [List.mem_map]
      · rw [if_neg ht] at hres
        simp only [alookup_aset_self, Option.getD_some] at hres
        cases hres
        refine pullLoop_closed_sql src _ Repo.init _ 0 0 (fun id => ?_) ?_
        · constructor
          · intro hm
            exact absurd hm (by simp [Repo.init])
          · rintro ⟨c, hc, -⟩
            exact absurd hc (by simp [Repo.init])
        · exact fun c hc _ => absurd hc (by simp [Repo.init])
  · rw [if_pos (by simpa using fun h1 h2 => hv ⟨h1, h2⟩)] at hres
    exact h0 tgt' hres

end SqliteFS

namespace SqliteFS

/-- A file row that passed the `commit_id = cid` filter is rebuilt
unchanged by the pull loop's copy. -/
theorem filter_files_copy (l : List FileRow) (cid : String) :
    (l.filter fun f => f.commit_id = cid).map
      (fun f => (⟨cid, f.file_path, f.file_hash, f.content⟩ : FileRow)) =
    l.filter fun f => f.commit_id = cid := by
  induction l with
  | nil => rfl
  | cons f rest ih =>
    obtain ⟨fc, fp, fh, co⟩ := f
    by_cases h : fc = cid
    · subst h
      rw [List.filter_cons, if_pos (by simp), List.map_cons, ih]
    · rw [List.filter_cons, if_neg (by simp [h]), ih]

/-- A change row that passed the `commit_id = cid` filter is rebuilt
unchanged by the pull loop's copy. -/
theorem filter_changes_copy (l : List ChangeRow) (cid : String) :
    (l.filter fun ch => ch.commit_id = cid).map
      (fun ch => (⟨cid, ch.file_path, ch.record⟩ : ChangeRow)) =
    l.filter fun ch => ch.commit_id = cid := by
  induction l with
  | nil => rfl
  | cons ch rest ih =>
    obtain ⟨cc, cp, cr⟩ := ch
    by_cases h : cc = cid
    · subst h
      rw [List.filter_cons, if_pos (by simp), List.map_cons, ih]
    · rw [List.filter_cons, if_neg (by simp [h]), ih]

/-- Folding the apply-branch over a row list appends exactly those rows to
the target's `commits` table. -/
theorem foldl_applyCommit_commits (src : Repo) (rows : List CommitRow) :
    ∀ tgt : Repo,
      (rows.foldl (applyCommit src) tgt).commits = tgt.commits ++ rows := by
  induction rows with
  | nil => intro tgt; simp
  | cons c rest ih =>
    intro tgt
    rw [List.foldl_cons, ih]
    simp [applyCommit]

/-- Folding the apply-branch appends each pulled commit's source file rows
verbatim to the target's `files` table. -/
theorem foldl_applyCommit_files (src : Repo) (rows : List CommitRow) :
    ∀ tgt : Repo,
      (rows.foldl (applyCommit src) tgt).files =
        tgt.files ++
          (rows.map fun c => src.files.filter fun f => f.commit_id = c.id).flatten := by
  induction rows with
  | nil => intro tgt; simp
  | cons c rest ih =>
    intro tgt
    rw [List.foldl_cons, ih]
    simp only [applyCommit, List.map_cons, List.flatten_cons]
    rw [filter_files_copy, List.append_assoc]

/-- Folding the apply-branch appends each pulled commit's source change
rows verbatim to the target's `changes` table. -/
theorem foldl_applyCommit_changes (src : Repo) (rows : List CommitRow) :
    ∀ tgt : Repo,
      (rows.foldl (applyCommit src) tgt).changes =
        tgt.changes ++
          (rows.map fun c => src.changes.filter fun ch => ch.commit_id = c.id).flatten := by
  induction rows with
  | nil => intro tgt; simp
  | cons c rest ih =>
    intro tgt
    rw [List.foldl_cons, ih]
    simp only [applyCommit, List.map_cons, List.flatten_cons]
    rw [filter_changes_copy, List.append_assoc]

/-- Rows of commits none of which is `rid` contribute no `rid`-change
rows. -/
theorem flatten_filter_changes_zero (sc : List ChangeRow)
    (rows : List CommitRow) (rid : String) (h : ∀ c ∈ rows, c.id ≠ rid) :
    ((rows.map fun c => sc.filter fun ch => ch.commit_id = c.id).flatten.filter
        fun ch => ch.commit_id = rid) = [] := by
  induction rows with
  | nil => rfl
  | cons c rest ih =>
    simp only [List.map_cons, List.flatten_cons, List.filter_append]
    rw [ih fun c' hc' => h c' (List.mem_cons_of_mem c hc'), List.append_nil]
    rw [List.filter_eq_nil_iff]
    intro a ha
    have h2 := (List.mem_filter.mp ha).2
    simp only [decide_eq_true_eq] at h2 ⊢
    rw [h2]
    exact h c (List.mem_cons_self c rest)

/-- With duplicate-free commit ids, the change rows copied for the whole
row list restrict, on commit `rid`, to exactly the source's `rid`-change
rows. -/
theorem flatten_filter_changes_count (sc : List ChangeRow)
    (rows : List CommitRow) (rid : String)
    (hmem : ∃ c ∈ rows, c.id = rid) (hnd : (rows.map fun c => c.id).Nodup) :
    ((rows.map fun c => sc.filter fun ch => ch.commit_id = c.id).flatten.filter
        fun ch => ch.commit_id = rid) =
      sc.filter fun ch => ch.commit_id = rid := by
  induction rows with
  | nil => exact absurd hmem (by simp)
  | cons c rest ih =>
    simp only [List.map_cons, List.flatten_cons, List.filter_append]
    simp only [List.map_cons, List.nodup_cons] at hnd
    by_cases h : c.id = rid
    · subst h
      rw [flatten_filter_changes_zero sc rest c.id
        (fun c' hc' hceq => hnd.1 (hceq ▸ List.mem_map_of_mem _ hc')),
        List.append_nil]
      rw [List.filter_eq_self]
      intro a ha
      exact (List.mem_filter.mp ha).2
    · rw [show ((sc.filter fun ch => ch.commit_id = c.id).filter
          fun ch => ch.commit_id = rid) = [] from ?_, List.nil_append]
      · refine ih ?_ hnd.2
        rcases hmem with ⟨c', hc', hid⟩
        rcases List.mem_cons.mp hc' with rfl | h2
        · exact absurd hid h
        · exact ⟨c', h2, hid⟩
      · rw [List.filter_eq_nil_iff]
        intro a ha
        have h2 := (List.mem_filter.mp ha).2
        simp only [decide_eq_true_eq] at h2 ⊢
        rw [h2]
        exact h

/-- When no row's id is already present and every truthy parent is either
already present or named by an earlier row, the pull loop applies every
row in order, skipping none. -/
theorem pullLoop_complete (src : Repo) :
    ∀ (rows : List CommitRow) (tgt : Repo) (tgtIds : List String) (p k : Nat),
      ((rows.map fun c => c.id)).Nodup →
      (∀ c ∈ rows, c.id ∉ tgtIds) →
      (∀ pre c post, rows = pre ++ c :: post →
        pyTruthy c.parent_id = true →
        (c.parent_id.getD "") ∈ tgtIds ∨
          (c.parent_id.getD "") ∈ pre.map fun cc => cc.id) →
      pullLoop src rows tgt tgtIds p k =
        (rows.foldl (applyCommit src) tgt, p + rows.length, k) := by
  intro rows
  induction rows with
  | nil =>
    intro tgt tgtIds p k _ _ _
    simp [pullLoop]
  | cons c rest ih =>
    intro tgt tgtIds p k hnd hfresh hpar
    unfold pullLoop
    rw [if_neg (hfresh c (List.mem_cons_self c rest))]
    have hskip : ¬ (pyTruthy c.parent_id = true ∧
        (c.parent_id.getD "") ∉ tgtIds) := by
      rintro ⟨htr, hnin⟩
      rcases hpar [] c rest rfl htr with h | h
      · exact hnin h
      · simp at h
    rw [if_neg hskip]
    simp only [List.map_cons, List.nodup_cons] at hnd
    have hfresh' : ∀ c' ∈ rest, c'.id ∉ c.id :: tgtIds := by
      intro c' hc'
      simp only [List.mem_cons]
      rintro (hid | hid)
      · exact hnd.1 (hid ▸ List.mem_map_of_mem _ hc')
      · exact hfresh c' (List.mem_cons_of_mem c hc') hid
    have hpar' : ∀ pre c' post, rest = pre ++ c' :: post →
        pyTruthy c'.parent_id = true →
        (c'.parent_id.getD "") ∈ c.id :: tgtIds ∨
          (c'.parent_id.getD "") ∈ pre.map fun cc => cc.id := by
      intro pre c' post hrest htr
      rcases hpar (c :: pre) c' post (by rw [hrest]; rfl) htr with h | h
      · exact Or.inl (List.mem_cons_of_mem _ h)
      · simp only [List.map_cons, List.mem_cons] at h
        rcases h with h | h
        · exact Or.inl (h ▸ List.mem_cons_self _ _)
        · exact Or.inr h
    rw [ih (applyCommit src tgt c) (c.id :: tgtIds) (p + 1) k hnd.2 hfresh' hpar']
    rw [List.foldl_cons]
    simp only [List.length_cons, Prod.mk.injEq]
    exact ⟨trivial, by omega, trivial⟩

/-- A pull into a freshly created (empty) target transfers every source
commit when ids are duplicate-free and, in ascending timestamp order,
every truthy parent precedes its child. -/
theorem pull_complete_fresh (st1 : State) (s t : String) (src : Repo)
    (hvs : validate_repo_name s = true) (hvt : validate_repo_name t = true)
    (hs1 : alookup st1 s = some src) (ht1 : alookup st1 t = some Repo.init)
    (hnd : ((src.commits.map fun c => c.id)).Nodup)
    (hpar : ∀ pre c post,
      sortByKeyAsc (fun r : CommitRow => r.timestamp) src.commits =
        pre ++ c :: post →
      pyTruthy c.parent_id = true →
      (c.parent_id.getD "") ∈ pre.map fun cc => cc.id) :
    pull_commits st1 s t =
      (.success src.commits.length 0,
       aset st1 t
         ((sortByKeyAsc (fun r : CommitRow => r.timestamp) src.commits).foldl
           (applyCommit src) Repo.init)) := by
  unfold pull_commits
  rw [if_neg (by simp [hvs, hvt]), hs1]
  dsimp only
  have ht : amem st1 t = true := by simp [amem, ht1]
  simp only [ht, if_true]
  rw [ht1]
  simp only [Option.getD_some]
  have hnd' : (((sortByKeyAsc (fun r : CommitRow => r.timestamp)
      src.commits).map fun c => c.id)).Nodup :=
    (((sortByKeyAsc_perm (fun r : CommitRow => r.timestamp)
      src.commits).map fun c => c.id)).nodup_iff.mpr hnd
  rw [pullLoop_complete src _ Repo.init _ 0 0 hnd'
    (fun c _ hmem => by simp [Repo.init] at hmem)
    (fun pre c post h htr => Or.inr (hpar pre c post h htr))]
  rw [Nat.zero_add,
    (sortByKeyAsc_perm (fun r : CommitRow => r.timestamp) src.commits).length_eq]

/-- `clone_repo` into a fresh target, under the same conditions, succeeds
with every commit pulled and none skipped, the target being the fold of
the apply-branch over the ascending-timestamp row list. -/
theorem clone_complete (st : State) (s t : String) (src : Repo)
    (hvs : validate_repo_name s = true) (hvt : validate_repo_name t = true)
    (hs : alookup st s = some src) (ht : amem st t = false)
    (hnd : ((src.commits.map fun c => c.id)).Nodup)
    (hpar : ∀ pre c post,
      sortByKeyAsc (fun r : CommitRow => r.timestamp) src.commits =
        pre ++ c :: post →
      pyTruthy c.parent_id = true →
      (c.parent_id.getD "") ∈ pre.map fun cc => cc.id) :
    clone_repo st s t =
      (.successPull src.commits.length 0,
       aset (aset st t Repo.init) t
         ((sortByKeyAsc (fun r : CommitRow => r.timestamp) src.commits).foldl
           (applyCommit src) Repo.init)) := by
  have hmem : amem st s = true := by simp [amem, hs]
  have hst : s ≠ t := by
    intro h
    rw [h, ht] at hmem
    exact Bool.noConfusion hmem
  have hpull := pull_complete_fresh (aset st t Repo.init) s t src hvs hvt
    (by rw [alookup_aset_other _ _ _ _ hst]; exact hs)
    (by rw [alookup_aset_self]) hnd hpar
  unfold clone_repo
  rw [if_neg (by simp [hvs, hvt]), if_neg (by simp [hmem]),
    if_neg (by simp [ht])]
  dsimp only
  rw [hpull]

/-- The target built by a complete pull from `src` lists exactly the
source's commit summaries: same rows and, per commit, the same number of
change rows. -/
theorem pulled_repo_summaries (src tgt' : Repo)
    (htgt : tgt' =
      (sortByKeyAsc (fun r : CommitRow => r.timestamp) src.commits).foldl
        (applyCommit src) Repo.init)
    (hnd : ((src.commits.map fun c => c.id)).Nodup)
    (hts : ((src.commits.map fun c => c.timestamp)).Nodup) :
    ((sortByKeyDesc (fun r : CommitRow => r.timestamp) tgt'.commits).map fun r =>
      (⟨r.id, r.message, r.author, r.timestamp, r.parent_id,
        (tgt'.changes.filter fun ch => ch.commit_id = r.id).length⟩ :
        CommitSummary)) =
    ((sortByKeyDesc (fun r : CommitRow => r.timestamp) src.commits).map fun r =>
      ⟨r.id, r.message, r.author, r.timestamp, r.parent_id,
        (src.changes.filter fun ch => ch.commit_id = r.id).length⟩) := by
  subst htgt
  rw [foldl_applyCommit_commits, foldl_applyCommit_changes]
  simp only [Repo.init, List.nil_append]
  rw [sortDesc_sortAsc _ _ hts]
  apply List.map_congr_left
  intro r hr
  have hr' : r ∈ src.commits :=
    (sortByKeyDesc_perm (fun r : CommitRow => r.timestamp) src.commits).mem_iff.mp hr
  have hnd' : (((sortByKeyAsc (fun r : CommitRow => r.timestamp)
      src.commits).map fun c => c.id)).Nodup :=
    (((sortByKeyAsc_perm (fun r : CommitRow => r.timestamp)
      src.commits).map fun c => c.id)).nodup_iff.mpr hnd
  rw [flatten_filter_changes_count src.changes _ r.id
    ⟨r, (sortByKeyAsc_perm (fun r : CommitRow => r.timestamp)
      src.commits).mem_iff.mpr hr', rfl⟩ hnd']

/-- File rows of the target built by a complete pull: every target file
row is verbatim a source file row, and every source file row belonging to
a source commit is in the target. -/
theorem pulled_repo_files (src tgt' : Repo)
    (htgt : tgt' =
      (sortByKeyAsc (fun r : CommitRow => r.timestamp) src.commits).foldl
        (applyCommit src) Repo.init) :
    (∀ f ∈ tgt'.files, f ∈ src.files) ∧
    (∀ f ∈ src.files, (∃ c ∈ src.commits, f.commit_id = c.id) →
      f ∈ tgt'.files) := by
  subst htgt
  have hfiles : ((sortByKeyAsc (fun r : CommitRow => r.timestamp)
      src.commits).foldl (applyCommit src) Repo.init).files =
      ((sortByKeyAsc (fun r : CommitRow => r.timestamp) src.commits).map
        fun c => src.files.filter fun f => f.commit_id = c.id).flatten := by
    rw [foldl_applyCommit_files]
    simp [Repo.init]
  constructor
  · intro f hf
    rw [hfiles] at hf
    obtain ⟨l, hl, hfl⟩ := List.mem_flatten.mp hf
    obtain ⟨c, hc, rfl⟩ := List.mem_map.mp hl
    exact List.mem_of_mem_filter hfl
  · rintro f hf ⟨c, hc, hid⟩
    rw [hfiles]
    refine List.mem_flatten.mpr
      ⟨src.files.filter fun f2 => f2.commit_id = c.id,
       List.mem_map_of_mem _ ((sortByKeyAsc_perm (fun r : CommitRow =>
         r.timestamp) src.commits).mem_iff.mpr hc),
       List.mem_filter.mpr ⟨hf, by simp [hid]⟩⟩

end SqliteFS

/-!
## Claim theorems
-/

/-- C6: for every content, the stored blob hash is the SHA-1 hex digest of
its UTF-8 bytes, so identical contents yield identical hashes in any two
repositories; and `store_object` is idempotent: re-storing content whose
object already exists changes nothing, keeping each distinct content
stored at most once per repository. -/
theorem C6_content_addressed_store :
    ∀ (r1 r2 : GraphDB.Repo) (c : String),
      (GraphDB.store_object r1 c).1 = sha1Hex (utf8Bytes c) ∧
      (GraphDB.store_object r1 c).1 = (GraphDB.store_object r2 c).1 ∧
      GraphDB.store_object (GraphDB.store_object r1 c).2 c =
        ((GraphDB.store_object r1 c).1, (GraphDB.store_object r1 c).2) := by
  intro r1 r2 c
  refine ⟨rfl, rfl, ?_⟩
  unfold GraphDB.store_object GraphDB.store_object_fs
  by_cases h : amem r1.objects (calculate_hash c) = true
  · simp [h]
  · simp only [Bool.not_eq_true] at h
    simp [h, amem_append_key]

/-- C7: on identical `(parent_files, current_files)` maps the two backends
compute identical change sets byte for byte (the loop is duplicated code),
as pure — hence run-deterministic — functions; and the diff text stored
for a modified path is the unified diff of the parent's and current lines
under the labels `a/<path>` and `b/<path>`. -/
theorem C7_backend_change_determinism :
    (∀ pf cf : List (String × FileEntry),
      GraphDB.changes_from_maps pf cf = SqliteFS.changes_from_maps pf cf) ∧
    (∀ parentContent currentContent path : String,
      diffText parentContent currentContent path =
        String.intercalate "\n"
          (unified_diff (pySplitlines parentContent)
            (pySplitlines currentContent) ("a/" ++ path) ("b/" ++ path))) := by
  constructor
  · intro pf cf
    unfold GraphDB.changes_from_maps SqliteFS.changes_from_maps
    rw [sqlite_changesLoop_eq]
  · intro p c path
    rfl

/-- C1: pushing a commit whose id already exists in the repository returns
the duplicate-success result (HTTP 200, not an error) and leaves the whole
backend state exactly as it was, in both backends. -/
theorem C1_duplicate_push_noop :
    (∀ (st : GraphDB.State) (data : PushData) (repo : GraphDB.Repo),
      validate_repo_name data.repo_name = true →
      alookup st data.repo_name = some repo →
      amem repo.graph.commits data.id = true →
      GraphDB.push_commit st data = (.duplicate data.id, st)) ∧
    (∀ (st : SqliteFS.State) (data : PushData) (repo : SqliteFS.Repo),
      validate_repo_name data.repo_name = true →
      alookup st data.repo_name = some repo →
      SqliteFS.commitExists repo data.id = true →
      SqliteFS.push_commit st data = (.duplicate data.id, st)) := by
  constructor
  · intro st data repo hv hl hm
    have hmem : amem st data.repo_name = true := by simp [amem, hl]
    unfold GraphDB.push_commit
    simp [hv, hmem, hl, hm]
  · intro st data repo hv hl hm
    have hmem : amem st data.repo_name = true := by simp [amem, hl]
    unfold SqliteFS.push_commit
    simp [hv, hmem, hl, hm]

/-- C1 witness: re-pushing commit `A` is a no-op success in both backends
on a concrete one-commit repository. -/
theorem C1_witness :
    GraphDB.push_commit
      [("r", ⟨⟨[("A", ⟨"m", "a", "t", none, []⟩)], [], some "A", some "A"⟩, []⟩)]
      ⟨"r", "A", "m2", "a2", "t2", none, []⟩ =
      (.duplicate "A",
       [("r", ⟨⟨[("A", ⟨"m", "a", "t", none, []⟩)], [], some "A", some "A"⟩, []⟩)]) ∧
    SqliteFS.push_commit [("r", ⟨[⟨"A", "m", "a", "t", none⟩], [], []⟩)]
      ⟨"r", "A", "m2", "a2", "t2", none, []⟩ =
      (.duplicate "A", [("r", ⟨[⟨"A", "m", "a", "t", none⟩], [], []⟩)]) :=
  ⟨C1_duplicate_push_noop.1
      [("r", ⟨⟨[("A", ⟨"m", "a", "t", none, []⟩)], [], some "A", some "A"⟩, []⟩)]
      ⟨"r", "A", "m2", "a2", "t2", none, []⟩
      ⟨⟨[("A", ⟨"m", "a", "t", none, []⟩)], [], some "A", some "A"⟩, []⟩
      (by decide) (by decide) (by decide),
   C1_duplicate_push_noop.2
      [("r", ⟨[⟨"A", "m", "a", "t", none⟩], [], []⟩)]
      ⟨"r", "A", "m2", "a2", "t2", none, []⟩
      ⟨[⟨"A", "m", "a", "t", none⟩], [], []⟩
      (by decide) (by decide) (by decide)⟩

/-- C9: a push whose truthy `parent_id` names an absent commit is rejected
by the relational backend with a parent-not-found error and no state
change, while the graph backend records the commit with a dangling parent
reference — the backends disagree on this input. -/
theorem C9_parent_enforcement_mismatch :
    (∀ (st : SqliteFS.State) (data : PushData) (repo : SqliteFS.Repo) (p : String),
      validate_repo_name data.repo_name = true →
      alookup st data.repo_name = some repo →
      data.parent_id = some p → p ≠ "" →
      SqliteFS.commitExists repo data.id = false →
      SqliteFS.commitExists repo p = false →
      SqliteFS.push_commit st data = (.parentNotFound p, st)) ∧
    (∀ (st : GraphDB.State) (data : PushData) (repo : GraphDB.Repo) (p : String),
      validate_repo_name data.repo_name = true →
      alookup st data.repo_name = some repo →
      data.parent_id = some p → p ≠ "" → p ≠ data.id →
      amem repo.graph.commits data.id = false →
      amem repo.graph.commits p = false →
      ∃ n st', GraphDB.push_commit st data = (.success n, st') ∧
        ∃ repo' cd, alookup st' data.repo_name = some repo' ∧
          alookup repo'.graph.commits data.id = some cd ∧
          cd.parent_id = some p ∧
          amem repo'.graph.commits p = false) := by
  constructor
  · intro st data repo p hv hl hp hpne hid hpar
    have hmem : amem st data.repo_name = true := by simp [amem, hl]
    unfold SqliteFS.push_commit
    simp [hv, hmem, hl, hid, hp, pyTruthy, hpne, hpar]
  · intro st data repo p hv hl hp hpne hpid hid hpar
    have hparlook : alookup repo.graph.commits p = none := by
      unfold amem at hpar
      cases hlp : alookup repo.graph.commits p
      · rfl
      · rw [hlp] at hpar
        simp at hpar
    obtain ⟨L, hcalc⟩ := GraphDB.calculate_changes_dangling repo data p hp hpne hparlook
    have hpush := GraphDB.push_commit_success_anatomy st data repo hv hl hid L hcalc
    refine ⟨L.length, _, hpush, _,
      ⟨data.message, data.author, data.timestamp, data.parent_id,
       (GraphDB.storeFiles repo data.files).1⟩,
      alookup_aset_self st data.repo_name _, ?_, by simp [hp], ?_⟩
    · rw [GraphDB.recordCommit_commits, GraphDB.storeFiles_graph]
      exact alookup_aset_self _ _ _
    · unfold amem
      rw [GraphDB.recordCommit_commits, GraphDB.storeFiles_graph,
        alookup_aset_other _ _ _ _ hpid, hparlook]
      rfl

/-- C9 witness: pushing `B` with absent parent `X` into an empty
repository is rejected by the relational backend and recorded dangling by
the graph backend. -/
theorem C9_witness :
    SqliteFS.push_commit [("r", ⟨[], [], []⟩)]
      ⟨"r", "B", "m", "a", "t", some "X", []⟩ =
      (.parentNotFound "X", [("r", ⟨[], [], []⟩)]) ∧
    (∃ n st', GraphDB.push_commit [("r", ⟨⟨[], [], none, none⟩, []⟩)]
        ⟨"r", "B", "m", "a", "t", some "X", []⟩ = (.success n, st') ∧
      ∃ repo' cd, alookup st' "r" = some repo' ∧
        alookup repo'.graph.commits "B" = some cd ∧
        cd.parent_id = some "X" ∧
        amem repo'.graph.commits "X" = false) :=
  ⟨C9_parent_enforcement_mismatch.1 [("r", ⟨[], [], []⟩)]
      ⟨"r", "B", "m", "a", "t", some "X", []⟩ ⟨[], [], []⟩ "X"
      (by decide) (by decide) rfl (by decide) (by decide) (by decide),
   C9_parent_enforcement_mismatch.2 [("r", ⟨⟨[], [], none, none⟩, []⟩)]
      ⟨"r", "B", "m", "a", "t", some "X", []⟩ ⟨⟨[], [], none, none⟩, []⟩ "X"
      (by decide) (by decide) rfl (by decide) (by decide) (by decide) (by decide)⟩

/-- C2: change-set completeness.  For a commit whose truthy parent is
present (with all referenced blobs stored) the computed change record's
path set is `(parent.files ∪ current.files)` minus the unchanged-hash
paths: a path only in the current commit is `added` with null diff, a
path only in the parent is `deleted` with null diff, a path in both with
differing hashes is `modified` with a non-null diff, and a path in both
with equal hashes is omitted; with a null `parent_id` every file is
`added` with null diff. -/
theorem C2_change_set_completeness :
    (∀ (repo : GraphDB.Repo) (files : List (String × String)),
      GraphDB.calculate_changes repo none files =
        some (files.map fun pf => (pf.1, ⟨"added", none, none, some pf.2⟩))) ∧
    (∀ (repo : GraphDB.Repo) (pid : String) (pc : GraphDB.CommitData)
        (files : List (String × String)),
      pid ≠ "" →
      alookup repo.graph.commits pid = some pc →
      (∀ ph ∈ pc.files, amem repo.objects ph.2 = true) →
      (∀ fh ∈ files, amem repo.objects fh.2 = true) →
      ∃ changes, GraphDB.calculate_changes repo (some pid) files = some changes ∧
        (∀ p h, alookup files p = some h → alookup pc.files p = none →
          alookup changes p = some ⟨"added", none, none, some h⟩) ∧
        (∀ p h, alookup files p = none → alookup pc.files p = some h →
          alookup changes p = some ⟨"deleted", none, some h, none⟩) ∧
        (∀ p hcur hpar, alookup files p = some hcur →
          alookup pc.files p = some hpar → hpar ≠ hcur →
          ∃ d, alookup changes p =
            some ⟨"modified", some d, some hpar, some hcur⟩) ∧
        (∀ p hcur hpar, alookup files p = some hcur →
          alookup pc.files p = some hpar → hpar = hcur →
          alookup changes p = none) ∧
        (∀ p, alookup files p = none → alookup pc.files p = none →
          alookup changes p = none)) := by
  constructor
  · intro repo files
    unfold GraphDB.calculate_changes
    simp [pyTruthy]
  · intro repo pid pc files hpne hpc hpb hcb
    obtain ⟨L, hL, h1, h2, h3, h4, h5⟩ :=
      GraphDB.changes_from_maps_built_spec repo pc.files files hpb hcb
    refine ⟨L, ?_, h1, h2, h3, h4, h5⟩
    unfold GraphDB.calculate_changes
    rw [if_neg (by simp [pyTruthy, hpne])]
    simp only [Option.getD_some]
    rw [hpc]
    exact hL

/-- Concrete repository for the C2 witness: parent commit `P` holds
`f.txt → h1` and `g.txt → h3`; all blobs stored. -/
def c2Repo : GraphDB.Repo :=
  ⟨⟨[("P", ⟨"m", "a", "t", none, [("f.txt", "h1"), ("g.txt", "h3")]⟩)],
    [], none, none⟩,
   [("h1", "v1"), ("h2", "v2"), ("h3", "v3")]⟩

/-- The C2 witness's current files: `f.txt` modified, `g.txt` unchanged,
`new.txt` added, and the parent-only path is deleted. -/
def c2Files : List (String × String) :=
  [("f.txt", "h2"), ("new.txt", "h1")]

/-- The C2 witness's parent commit record. -/
def c2Parent : GraphDB.CommitData :=
  ⟨"m", "a", "t", none, [("f.txt", "h1"), ("g.txt", "h3")]⟩

/-- C2 witness: the completeness characterization at a concrete repository
exercising all four cases. -/
theorem C2_witness :
    ∃ changes, GraphDB.calculate_changes c2Repo (some "P") c2Files =
        some changes ∧
      (∀ p h, alookup c2Files p = some h → alookup c2Parent.files p = none →
        alookup changes p = some ⟨"added", none, none, some h⟩) ∧
      (∀ p h, alookup c2Files p = none → alookup c2Parent.files p = some h →
        alookup changes p = some ⟨"deleted", none, some h, none⟩) ∧
      (∀ p hcur hpar, alookup c2Files p = some hcur →
        alookup c2Parent.files p = some hpar → hpar ≠ hcur →
        ∃ d, alookup changes p =
          some ⟨"modified", some d, some hpar, some hcur⟩) ∧
      (∀ p hcur hpar, alookup c2Files p = some hcur →
        alookup c2Parent.files p = some hpar → hpar = hcur →
        alookup changes p = none) ∧
      (∀ p, alookup c2Files p = none → alookup c2Parent.files p = none →
        alookup changes p = none) :=
  C2_change_set_completeness.2 c2Repo "P" c2Parent c2Files
    (by decide) (by decide) (by decide) (by decide)

/-- C4: on every successful push of a new commit in the graph backend,
HEAD and branch `main` move to the new commit id exactly when the old HEAD
was null or equalled the commit's `parent_id`; otherwise both are left
unchanged, while the commit is still recorded and retrievable via
`check_commit`.  (The relational backend stores no HEAD or branch pointer
at all, so the rule is realized only by the graph backend.) -/
theorem C4_head_fast_forward (st : GraphDB.State) (data : PushData)
    (repo : GraphDB.Repo)
    (hv : validate_repo_name data.repo_name = true)
    (hl : alookup st data.repo_name = some repo)
    (hdup : amem repo.graph.commits data.id = false)
    (L : List (String × ChangeRecord))
    (hcalc : GraphDB.calculate_changes (GraphDB.storeFiles repo data.files).2
      data.parent_id (GraphDB.storeFiles repo data.files).1 = some L) :
    ∃ repo', (GraphDB.push_commit st data).1 = .success L.length ∧
      alookup (GraphDB.push_commit st data).2 data.repo_name = some repo' ∧
      repo'.graph.head =
        (if repo.graph.head = none ∨ repo.graph.head = data.parent_id
         then some data.id else repo.graph.head) ∧
      repo'.graph.branches_main =
        (if repo.graph.head = none ∨ repo.graph.head = data.parent_id
         then some data.id else repo.graph.branches_main) ∧
      amem repo'.graph.commits data.id = true ∧
      GraphDB.check_commit (GraphDB.push_commit st data).2 data.repo_name
        data.id = some true := by
  have hpush := GraphDB.push_commit_success_anatomy st data repo hv hl hdup L hcalc
  set repo' := GraphDB.recordCommit (GraphDB.storeFiles repo data.files).2 data
    (GraphDB.storeFiles repo data.files).1 L with hrepo'
  have hlook : alookup (GraphDB.push_commit st data).2 data.repo_name =
      some repo' := by
    rw [hpush]
    exact alookup_aset_self _ _ _
  have hmem : amem repo'.graph.commits data.id = true := by
    unfold amem
    rw [hrepo', GraphDB.recordCommit_commits, GraphDB.storeFiles_graph,
      alookup_aset_self]
    rfl
  refine ⟨repo', by rw [hpush], hlook, ?_, ?_, hmem, ?_⟩
  · rw [hrepo', GraphDB.recordCommit_head, GraphDB.storeFiles_graph]
  · rw [hrepo', GraphDB.recordCommit_branches, GraphDB.storeFiles_graph]
  · unfold GraphDB.check_commit
    rw [hlook]
    simp [hmem]

/-- C4 witness: pushing child `B` of current HEAD `A` fast-forwards HEAD
to `B`, and pushing sibling `C` (parent `A` again, HEAD now `B`) records
`C` but leaves HEAD at `B`. -/
theorem C4_witness :
    (∃ repo', (GraphDB.push_commit
        [("r", ⟨⟨[("A", ⟨"m", "a", "t1", none, []⟩)], [("A", [])],
          some "A", some "A"⟩, []⟩)]
        ⟨"r", "B", "m", "a", "t2", some "A", []⟩).1 = .success 0 ∧
      alookup (GraphDB.push_commit
        [("r", ⟨⟨[("A", ⟨"m", "a", "t1", none, []⟩)], [("A", [])],
          some "A", some "A"⟩, []⟩)]
        ⟨"r", "B", "m", "a", "t2", some "A", []⟩).2 "r" = some repo' ∧
      repo'.graph.head =
        (if (some "A" : Option String) = none ∨
            (some "A" : Option String) = some "A"
         then some "B" else some "A") ∧
      repo'.graph.branches_main =
        (if (some "A" : Option String) = none ∨
            (some "A" : Option String) = some "A"
         then some "B" else some "A") ∧
      amem repo'.graph.commits "B" = true ∧
      GraphDB.check_commit (GraphDB.push_commit
        [("r", ⟨⟨[("A", ⟨"m", "a", "t1", none, []⟩)], [("A", [])],
          some "A", some "A"⟩, []⟩)]
        ⟨"r", "B", "m", "a", "t2", some "A", []⟩).2 "r" "B" = some true) ∧
    (∃ repo', (GraphDB.push_commit
        [("r", ⟨⟨[("A", ⟨"m", "a", "t1", none, []⟩),
                  ("B", ⟨"m", "a", "t2", some "A", []⟩)],
          [("A", []), ("B", [])], some "B", some "B"⟩, []⟩)]
        ⟨"r", "C", "m", "a", "t3", some "A", []⟩).1 = .success 0 ∧
      alookup (GraphDB.push_commit
        [("r", ⟨⟨[("A", ⟨"m", "a", "t1", none, []⟩),
                  ("B", ⟨"m", "a", "t2", some "A", []⟩)],
          [("A", []), ("B", [])], some "B", some "B"⟩, []⟩)]
        ⟨"r", "C", "m", "a", "t3", some "A", []⟩).2 "r" = some repo' ∧
      repo'.graph.head =
        (if (some "B" : Option String) = none ∨
            (some "B" : Option String) = some "A"
         then some "C" else some "B") ∧
      repo'.graph.branches_main =
        (if (some "B" : Option String) = none ∨
            (some "B" : Option String) = some "A"
         then some "C" else some "B") ∧
      amem repo'.graph.commits "C" = true ∧
      GraphDB.check_commit (GraphDB.push_commit
        [("r", ⟨⟨[("A", ⟨"m", "a", "t1", none, []⟩),
                  ("B", ⟨"m", "a", "t2", some "A", []⟩)],
          [("A", []), ("B", [])], some "B", some "B"⟩, []⟩)]
        ⟨"r", "C", "m", "a", "t3", some "A", []⟩).2 "r" "C" = some true) :=
  ⟨C4_head_fast_forward
      [("r", ⟨⟨[("A", ⟨"m", "a", "t1", none, []⟩)], [("A", [])],
        some "A", some "A"⟩, []⟩)]
      ⟨"r", "B", "m", "a", "t2", some "A", []⟩
      ⟨⟨[("A", ⟨"m", "a", "t1", none, []⟩)], [("A", [])],
        some "A", some "A"⟩, []⟩
      (by decide) (by decide) (by decide) [] (by decide),
   C4_head_fast_forward
      [("r", ⟨⟨[("A", ⟨"m", "a", "t1", none, []⟩),
                ("B", ⟨"m", "a", "t2", some "A", []⟩)],
        [("A", []), ("B", [])], some "B", some "B"⟩, []⟩)]
      ⟨"r", "C", "m", "a", "t3", some "A", []⟩
      ⟨⟨[("A", ⟨"m", "a", "t1", none, []⟩),
         ("B", ⟨"m", "a", "t2", some "A", []⟩)],
        [("A", []), ("B", [])], some "B", some "B"⟩, []⟩
      (by decide) (by decide) (by decide) [] (by decide)⟩

/-- C8: in both backends `clone_repo` errors when the source repository
does not exist and when the target already exists, in each case leaving
the state untouched, and every non-success outcome leaves the backend
state exactly as it was — no partially created target is ever visible. -/
theorem C8_clone_all_or_nothing :
    (∀ (st : GraphDB.State) (s t : String),
      validate_repo_name s = true → validate_repo_name t = true →
      (alookup st s = none → GraphDB.clone_repo st s t = (.sourceNotFound, st)) ∧
      (∀ src, alookup st s = some src → amem st t = true →
        GraphDB.clone_repo st s t = (.targetExists, st))) ∧
    (∀ (st : GraphDB.State) (s t : String) (r : CloneResult)
        (st' : GraphDB.State),
      GraphDB.clone_repo st s t = (r, st') →
      (∀ n m, r ≠ .successGraph n m) → st' = st) ∧
    (∀ (st : SqliteFS.State) (s t : String),
      validate_repo_name s = true → validate_repo_name t = true →
      (amem st s = false → SqliteFS.clone_repo st s t = (.sourceNotFound, st)) ∧
      (amem st s = true → amem st t = true →
        SqliteFS.clone_repo st s t = (.targetExists, st))) ∧
    (∀ (st : SqliteFS.State) (s t : String) (r : CloneResult)
        (st' : SqliteFS.State),
      SqliteFS.clone_repo st s t = (r, st') →
      (∀ n m, r ≠ .successPull n m) → st' = st) := by
  refine ⟨?_, ?_, ?_, ?_⟩
  · intro st s t hvs hvt
    constructor
    · intro hs
      unfold GraphDB.clone_repo
      simp [hvs, hvt, hs]
    · intro src hs ht
      unfold GraphDB.clone_repo
      simp [hvs, hvt, hs, ht]
  · intro st s t r st' h hne
    unfold GraphDB.clone_repo at h
    by_cases hv : validate_repo_name s = true ∧ validate_repo_name t = true
    · rw [if_neg (by simp [hv.1, hv.2])] at h
      cases hs : alookup st s with
      | none =>
        rw [hs] at h
        dsimp only at h
        cases h
        rfl
      | some src =>
        rw [hs] at h
        dsimp only at h
        by_cases ht : amem st t = true
        · rw [if_pos ht] at h
          cases h
          rfl
        · rw [if_neg ht] at h
          cases h
          exact absurd rfl (hne _ _)
    · rw [if_pos (by simpa using fun h1 h2 => hv ⟨h1, h2⟩)] at h
      cases h
      rfl
  · intro st s t hvs hvt
    constructor
    · intro hs
      unfold SqliteFS.clone_repo
      simp [hvs, hvt, hs]
    · intro hs ht
      unfold SqliteFS.clone_repo
      simp [hvs, hvt, hs, ht]
  · intro st s t r st' h hne
    unfold SqliteFS.clone_repo at h
    by_cases hv : validate_repo_name s = true ∧ validate_repo_name t = true
    · rw [if_neg (by simp [hv.1, hv.2])] at h
      by_cases hs : amem st s = true
      · rw [if_neg (by simp [hs])] at h
        by_cases ht : amem st t = true
        · rw [if_pos ht] at h
          cases h
          rfl
        · rw [if_neg ht] at h
          dsimp only at h
          exfalso
          obtain ⟨src, hsrc⟩ := Option.isSome_iff_exists.mp hs
          have hst : s ≠ t := fun hh => ht (hh ▸ hs)
          have hs1 : alookup (aset st t SqliteFS.Repo.init) s = some src := by
            rw [alookup_aset_other _ _ _ _ hst, hsrc]
          have hpull : ∃ pulled skipped st2,
              SqliteFS.pull_commits (aset st t SqliteFS.Repo.init) s t =
                (.success pulled skipped, st2) := by
            unfold SqliteFS.pull_commits
            rw [if_neg (by simp [hv.1, hv.2]), hs1]
            exact ⟨_, _, _, rfl⟩
          obtain ⟨pulled, skipped, st2, hpull⟩ := hpull
          rw [hpull] at h
          dsimp only at h
          cases h
          exact hne _ _ rfl
      · rw [if_pos (by simpa using hs)] at h
        cases h
        rfl
    · rw [if_pos (by simpa using fun h1 h2 => hv ⟨h1, h2⟩)] at h
      cases h
      rfl

/-- C8 witness: on concrete states, cloning from a missing source and onto
an existing target error without touching the state, in both backends. -/
theorem C8_witness :
    GraphDB.clone_repo [] "a" "b" = (.sourceNotFound, []) ∧
    GraphDB.clone_repo [("a", GraphDB.Repo.init), ("b", GraphDB.Repo.init)]
      "a" "b" = (.targetExists,
        [("a", GraphDB.Repo.init), ("b", GraphDB.Repo.init)]) ∧
    SqliteFS.clone_repo [] "a" "b" = (.sourceNotFound, []) ∧
    SqliteFS.clone_repo [("a", SqliteFS.Repo.init), ("b", SqliteFS.Repo.init)]
      "a" "b" = (.targetExists,
        [("a", SqliteFS.Repo.init), ("b", SqliteFS.Repo.init)]) :=
  ⟨(C8_clone_all_or_nothing.1 [] "a" "b" (by decide) (by decide)).1 (by decide),
   (C8_clone_all_or_nothing.1
      [("a", GraphDB.Repo.init), ("b", GraphDB.Repo.init)] "a" "b"
      (by decide) (by decide)).2 GraphDB.Repo.init (by decide) (by decide),
   (C8_clone_all_or_nothing.2.2.1 [] "a" "b" (by decide) (by decide)).1
      (by decide),
   (C8_clone_all_or_nothing.2.2.1
      [("a", SqliteFS.Repo.init), ("b", SqliteFS.Repo.init)] "a" "b"
      (by decide) (by decide)).2 (by decide) (by decide)⟩

/-- C10: pull never modifies the source repository — its commits, change
records, blobs, branches and HEAD are exactly what they were before — and
writes only the target's entry of the backend state, in both backends,
including when source and target coincide. -/
theorem C10_pull_source_frame :
    (∀ (st : GraphDB.State) (s t u : String), u ≠ t →
      alookup (GraphDB.pull_commits st s t).2 u = alookup st u) ∧
    (∀ (st : GraphDB.State) (s t : String),
      alookup (GraphDB.pull_commits st s t).2 s = alookup st s) ∧
    (∀ (st : SqliteFS.State) (s t u : String), u ≠ t →
      alookup (SqliteFS.pull_commits st s t).2 u = alookup st u) ∧
    (∀ (st : SqliteFS.State) (s t : String),
      alookup (SqliteFS.pull_commits st s t).2 s = alookup st s) :=
  ⟨GraphDB.pull_frame_other, GraphDB.pull_frame_self,
   SqliteFS.pull_frame_other_sql, SqliteFS.pull_frame_self_sql⟩

/-- C10 witness: a concrete pull leaves the source entry (and a non-target
bystander entry) untouched in both backends. -/
theorem C10_witness :
    ("src" : String) ≠ "tgt" ∧
    alookup (GraphDB.pull_commits
      [("src", ⟨⟨[("A", ⟨"m", "a", "t", none, []⟩)], [("A", [])],
        some "A", some "A"⟩, []⟩)] "src" "tgt").2 "src" =
      alookup [("src", ⟨⟨[("A", ⟨"m", "a", "t", none, []⟩)], [("A", [])],
        some "A", some "A"⟩, []⟩)] "src" ∧
    alookup (SqliteFS.pull_commits
      [("src", ⟨[⟨"A", "m", "a", "t", none⟩], [], []⟩)] "src" "tgt").2 "src" =
      alookup [("src", ⟨[⟨"A", "m", "a", "t", none⟩], [], []⟩)] "src" :=
  ⟨by decide,
   C10_pull_source_frame.1
      [("src", ⟨⟨[("A", ⟨"m", "a", "t", none, []⟩)], [("A", [])],
        some "A", some "A"⟩, []⟩)] "src" "tgt" "src" (by decide),
   C10_pull_source_frame.2.2.2
      [("src", ⟨[⟨"A", "m", "a", "t", none⟩], [], []⟩)] "src" "tgt"⟩

/-- Source repository refuting C3 as stated: parent `A` is timestamped
after its child `B`, so the relational backend's ascending-timestamp
visitation emits `B` before `A`. -/
def c3Src : SqliteFS.Repo :=
  ⟨[⟨"A", "mA", "au", "2024-02", none⟩, ⟨"B", "mB", "au", "2024-01", some "A"⟩],
   [], []⟩

/-- C3 counterexample: the relational backend does not visit commits in a
topological order.  Source `src` holds the chain `A ← B` (both present, so
every commit's parent is satisfiable), yet a single pull into a fresh
target transfers only `A` and leaves `B` behind, because the
ascending-timestamp visitation emits `B` (timestamp "2024-01") before its
parent `A` (timestamp "2024-02"); a visitation order emitting every
commit after its parent would have transferred both. -/
theorem C3_counterexample :
    SqliteFS.commitExists c3Src "A" = true ∧
    SqliteFS.commitExists c3Src "B" = true ∧
    (SqliteFS.pull_commits [("src", c3Src)] "src" "tgt").1 =
      PullResult.success 1 0 ∧
    SqliteFS.check_commit (SqliteFS.pull_commits [("src", c3Src)] "src" "tgt").2
      "tgt" "A" = some true ∧
    SqliteFS.check_commit (SqliteFS.pull_commits [("src", c3Src)] "src" "tgt").2
      "tgt" "B" = some false := by
  decide

/-- C3 (amended): the relational backend visits commits in ascending
timestamp order, which need not emit a commit after its parent (a child
timestamped before its parent is left for a later pull, see the
counterexample); in both backends a commit whose required parent is not
yet present in the target is skipped, never applied before its parent:
pull preserves parent-closure of an existing target and establishes it
for a freshly created one. -/
theorem C3_pull_parent_safety :
    (∀ (st : GraphDB.State) (s t : String) (tgt tgt' : GraphDB.Repo),
      alookup st t = some tgt → GraphDB.parentClosed tgt.graph →
      alookup (GraphDB.pull_commits st s t).2 t = some tgt' →
      GraphDB.parentClosed tgt'.graph) ∧
    (∀ (st : GraphDB.State) (s t : String) (tgt' : GraphDB.Repo),
      alookup st t = none →
      alookup (GraphDB.pull_commits st s t).2 t = some tgt' →
      GraphDB.parentClosed tgt'.graph) ∧
    (∀ (st : SqliteFS.State) (s t : String) (tgt tgt' : SqliteFS.Repo),
      alookup st t = some tgt → SqliteFS.parentClosed tgt →
      alookup (SqliteFS.pull_commits st s t).2 t = some tgt' →
      SqliteFS.parentClosed tgt') ∧
    (∀ (st : SqliteFS.State) (s t : String) (tgt' : SqliteFS.Repo),
      alookup st t = none →
      alookup (SqliteFS.pull_commits st s t).2 t = some tgt' →
      SqliteFS.parentClosed tgt') :=
  ⟨fun st s t tgt tgt' h hc hr =>
    GraphDB.pull_preserves_closed st s t
      (fun tgt0 h0 => by rw [h] at h0; cases h0; exact hc) tgt' hr,
   fun st s t tgt' h hr =>
    GraphDB.pull_preserves_closed st s t
      (fun tgt0 h0 => by rw [h] at h0; cases h0) tgt' hr,
   fun st s t tgt tgt' h hc hr =>
    SqliteFS.pull_preserves_closed_sql st s t
      (fun tgt0 h0 => by rw [h] at h0; cases h0; exact hc) tgt' hr,
   fun st s t tgt' h hr =>
    SqliteFS.pull_preserves_closed_sql st s t
      (fun tgt0 h0 => by rw [h] at h0; cases h0) tgt' hr⟩

/-- C3 witness: pulling into a fresh target yields a parent-closed target
in both backends, on concrete states. -/
theorem C3_witness :
    (∃ tgt', alookup (GraphDB.pull_commits
        [("src", ⟨⟨[("A", ⟨"m", "a", "t", none, []⟩)], [("A", [])],
          some "A", some "A"⟩, []⟩)] "src" "tgt").2 "tgt" = some tgt' ∧
      GraphDB.parentClosed tgt'.graph) ∧
    (∃ tgt', alookup (SqliteFS.pull_commits
        [("src", c3Src)] "src" "tgt").2 "tgt" = some tgt' ∧
      SqliteFS.parentClosed tgt') := by
  constructor
  · refine ⟨(alookup (GraphDB.pull_commits
        [("src", ⟨⟨[("A", ⟨"m", "a", "t", none, []⟩)], [("A", [])],
          some "A", some "A"⟩, []⟩)] "src" "tgt").2 "tgt").getD
        GraphDB.Repo.init, by decide, ?_⟩
    exact C3_pull_parent_safety.2.1
      [("src", ⟨⟨[("A", ⟨"m", "a", "t", none, []⟩)], [("A", [])],
        some "A", some "A"⟩, []⟩)] "src" "tgt" _ (by decide) (by decide)
  · refine ⟨(alookup (SqliteFS.pull_commits
        [("src", c3Src)] "src" "tgt").2 "tgt").getD SqliteFS.Repo.init,
      by decide, ?_⟩
    exact C3_pull_parent_safety.2.2.2 [("src", c3Src)] "src" "tgt" _
      (by decide) (by decide)

/-- Source repository refuting C5 as stated for the relational backend:
commit `C` (child of `P`, carrying the only file row) is timestamped
before its parent `P`. -/
def c5Src : SqliteFS.Repo :=
  ⟨[⟨"P", "mP", "au", "2024-09", none⟩, ⟨"C", "mC", "au", "2024-08", some "P"⟩],
   [⟨"C", "f.txt", "h1", "hello"⟩], []⟩

/-- C5 counterexample: the relational backend's clone is a pull in
ascending timestamp order, so cloning a source whose child `C` is
timestamped before its parent `P` reports success (`1` pulled, `0`
skipped) yet produces a target holding only `P` — the target's commit
listing differs from the source's and `C`'s file row (and blob content)
is missing entirely. -/
theorem C5_counterexample :
    SqliteFS.commitExists c5Src "P" = true ∧
    SqliteFS.commitExists c5Src "C" = true ∧
    amem [("src", c5Src)] "tgt" = false ∧
    (SqliteFS.clone_repo [("src", c5Src)] "src" "tgt").1 =
      CloneResult.successPull 1 0 ∧
    alookup (SqliteFS.clone_repo [("src", c5Src)] "src" "tgt").2 "tgt" =
      some ⟨[⟨"P", "mP", "au", "2024-09", none⟩], [], []⟩ ∧
    SqliteFS.get_commits (SqliteFS.clone_repo [("src", c5Src)] "src" "tgt").2
        "tgt" ≠
      SqliteFS.get_commits [("src", c5Src)] "src" := by
  decide

/-- C5 (amended): clone fidelity holds unconditionally for the graph
backend, whose clone copies the commits, change records, branches, HEAD
and the whole objects directory verbatim, so the target lists exactly the
source's commits and holds bit-identical blobs.  The relational backend's
clone delegates to pull in ascending timestamp order and is faithful only
under side conditions: duplicate-free commit ids and timestamps, and every
truthy parent preceding its child in that order; then every commit is
transferred (none skipped), the target's commit listing equals the
source's, and the target's file rows (hash and content) are verbatim
source rows, complete for every source commit.  Without the timestamp
condition a child sorted before its parent is dropped silently (see the
counterexample). -/
theorem C5_clone_fidelity :
    (∀ (st : GraphDB.State) (s t : String) (src : GraphDB.Repo),
      validate_repo_name s = true → validate_repo_name t = true →
      alookup st s = some src → amem st t = false →
      GraphDB.clone_repo st s t =
        (.successGraph src.graph.commits.length
          (dedupFirst ((src.graph.commits.map fun c =>
            c.2.files.map Prod.fst).flatten)).length, aset st t src) ∧
      alookup (GraphDB.clone_repo st s t).2 t = some src ∧
      GraphDB.get_commits (GraphDB.clone_repo st s t).2 t =
        GraphDB.get_commits st s) ∧
    (∀ (st : SqliteFS.State) (s t : String) (src : SqliteFS.Repo),
      validate_repo_name s = true → validate_repo_name t = true →
      alookup st s = some src → amem st t = false →
      ((src.commits.map fun c => c.id)).Nodup →
      ((src.commits.map fun c => c.timestamp)).Nodup →
      (∀ pre c post,
        sortByKeyAsc (fun r : SqliteFS.CommitRow => r.timestamp) src.commits =
          pre ++ c :: post →
        pyTruthy c.parent_id = true →
        (c.parent_id.getD "") ∈ pre.map fun cc => cc.id) →
      ∃ tgt' : SqliteFS.Repo,
        SqliteFS.clone_repo st s t =
          (.successPull src.commits.length 0,
           aset (aset st t SqliteFS.Repo.init) t tgt') ∧
        SqliteFS.get_commits (SqliteFS.clone_repo st s t).2 t =
          SqliteFS.get_commits st s ∧
        (∀ f ∈ tgt'.files, f ∈ src.files) ∧
        (∀ f ∈ src.files, (∃ c ∈ src.commits, f.commit_id = c.id) →
          f ∈ tgt'.files)) := by
  constructor
  · intro st s t src hvs hvt hs ht
    have hcl : GraphDB.clone_repo st s t =
        (.successGraph src.graph.commits.length
          (dedupFirst ((src.graph.commits.map fun c =>
            c.2.files.map Prod.fst).flatten)).length, aset st t src) := by
      unfold GraphDB.clone_repo
      rw [if_neg (by simp [hvs, hvt]), hs]
      dsimp only
      rw [if_neg (by simp [ht])]
    refine ⟨hcl, ?_, ?_⟩
    · rw [hcl]
      exact alookup_aset_self st t src
    · rw [hcl]
      unfold GraphDB.get_commits
      rw [alookup_aset_self, hs]
  · intro st s t src hvs hvt hs ht hnd hts hpar
    have hcl := SqliteFS.clone_complete st s t src hvs hvt hs ht hnd hpar
    refine ⟨(sortByKeyAsc (fun r : SqliteFS.CommitRow => r.timestamp)
        src.commits).foldl (SqliteFS.applyCommit src) SqliteFS.Repo.init,
      hcl, ?_, (SqliteFS.pulled_repo_files src _ rfl).1,
      (SqliteFS.pulled_repo_files src _ rfl).2⟩
    rw [hcl]
    unfold SqliteFS.get_commits
    rw [alookup_aset_self, hs]
    exact congrArg some (SqliteFS.pulled_repo_summaries src _ rfl hnd hts)

/-- Repository used to witness the graph half of C5. -/
def c5GraphSrc : GraphDB.Repo :=
  ⟨⟨[("A", ⟨"m", "a", "t", none, [("f.txt", "h")]⟩)], [("A", [])],
    some "A", some "A"⟩, [("h", "hello")]⟩

/-- Repository used to witness the relational half of C5: parent `P`
timestamped before its child `C`, distinct ids and timestamps. -/
def c5GoodSrc : SqliteFS.Repo :=
  ⟨[⟨"P", "mP", "au", "2024-01", none⟩, ⟨"C", "mC", "au", "2024-02", some "P"⟩],
   [⟨"P", "a.txt", "hP", "A"⟩, ⟨"C", "a.txt", "hC", "B"⟩],
   [⟨"C", "a.txt", ⟨"modified", some "d", some "hP", some "hC"⟩⟩]⟩

/-- C5 witness: both halves applied to concrete repositories. -/
theorem C5_witness :
    (GraphDB.clone_repo [("src", c5GraphSrc)] "src" "tgt" =
        (.successGraph c5GraphSrc.graph.commits.length
          (dedupFirst ((c5GraphSrc.graph.commits.map fun c =>
            c.2.files.map Prod.fst).flatten)).length,
         aset [("src", c5GraphSrc)] "tgt" c5GraphSrc) ∧
      alookup (GraphDB.clone_repo [("src", c5GraphSrc)] "src" "tgt").2 "tgt" =
        some c5GraphSrc ∧
      GraphDB.get_commits
          (GraphDB.clone_repo [("src", c5GraphSrc)] "src" "tgt").2 "tgt" =
        GraphDB.get_commits [("src", c5GraphSrc)] "src") ∧
    (∃ tgt' : SqliteFS.Repo,
      SqliteFS.clone_repo [("src", c5GoodSrc)] "src" "tgt" =
        (.successPull c5GoodSrc.commits.length 0,
         aset (aset [("src", c5GoodSrc)] "tgt" SqliteFS.Repo.init) "tgt" tgt') ∧
      SqliteFS.get_commits
          (SqliteFS.clone_repo [("src", c5GoodSrc)] "src" "tgt").2 "tgt" =
        SqliteFS.get_commits [("src", c5GoodSrc)] "src" ∧
      (∀ f ∈ tgt'.files, f ∈ c5GoodSrc.files) ∧
      (∀ f ∈ c5GoodSrc.files,
        (∃ c ∈ c5GoodSrc.commits, f.commit_id = c.id) → f ∈ tgt'.files)) := by
  constructor
  · exact C5_clone_fidelity.1 [("src", c5GraphSrc)] "src" "tgt" c5GraphSrc
      (by decide) (by decide) (by decide) (by decide)
  · refine C5_clone_fidelity.2 [("src", c5GoodSrc)] "src" "tgt" c5GoodSrc
      (by decide) (by decide) (by decide) (by decide) (by decide) (by decide)
      ?_
    intro pre c post h htr
    rw [show sortByKeyAsc (fun r : SqliteFS.CommitRow => r.timestamp)
        c5GoodSrc.commits =
        [⟨"P", "mP", "au", "2024-01", none⟩,
         ⟨"C", "mC", "au", "2024-02", some "P"⟩] from by decide] at h
    cases pre with
    | nil =>
      injection h with h1 h2
      subst h1
      exact absurd htr (by decide)
    | cons a pre1 =>
      injection h with h1 h2
      cases pre1 with
      | nil =>
        injection h2 with h3 h4
        subst h3
        subst h1
        decide
      | cons b pre2 =>
        injection h2 with h3 h4
        cases pre2 with
        | nil => exact List.noConfusion h4
        | cons d pre3 => exact List.noConfusion h4

end VHub
